import Mathlib

/-!
Verification of `cleanpkgcache` (`src/main.rs`).

The tool has two cleaning operations:
  * `clean_package_cache` (main.rs lines 66-184): a two-level walk
    (package directory → version directories), keeping per package the 2
    most-recently-modified version directories and deleting the rest;
  * `clean_roo_checkpoints` (main.rs lines 186-254): a one-level walk over
    task directories, deleting the `checkpoints` subdirectory of every task
    older than a fixed two-month threshold.

The embedding models directory trees explicitly.  Fallible filesystem calls
(`fs::read_dir`, `fs::metadata`, `Metadata::modified`, `fs::remove_dir_all`)
are modelled by failure flags on the entries: a flag set means that call
returns `Err` for that entry, and the Rust `?` operator is modelled by a
`failure` field that freezes the fold once set.  `SystemTime` instants are
natural numbers (nanoseconds), so `Duration` arithmetic is `Nat` arithmetic.
Printing is modelled by accumulating the printed delete paths in a log and
recording whether the final summary was reached.
-/

namespace CleanPkgCache

/-- The collected record for one version directory
(struct `PackageVersion`, main.rs lines 256-261; the `path` field is
determined by the package name and the version name, so it is not repeated
here). -/
structure PackageVersion where
  name : String
  modified : Nat
deriving DecidableEq, Repr

/-- A directory entry inside a package directory (one result of
`fs::read_dir(&path)`, main.rs line 92).  `metadataFails` models
`fs::metadata` or `Metadata::modified` returning `Err` for this entry
(lines 112-116); `removeFails` models `fs::remove_dir_all` returning `Err`
on this entry (line 167). -/
structure VEntry where
  name : String
  isDir : Bool
  modified : Nat
  metadataFails : Bool
  removeFails : Bool
deriving DecidableEq, Repr

/-- A directory entry inside the cache root (one result of
`fs::read_dir(cache_path)`, main.rs line 70).  `readFails` models
`fs::read_dir(&path)` returning `Err` for this package directory
(line 92).  An entry whose name could not be decoded is modelled by the
empty name, matching `unwrap_or("")` (lines 80-87). -/
structure PEntry where
  name : String
  isDir : Bool
  readFails : Bool
  entries : List VEntry
deriving DecidableEq, Repr

/-- The cache root directory: the list of its entries in enumeration
order. -/
abbrev CacheFS := List PEntry

/-- One iteration of the version-collection loop (main.rs lines 92-123):
skip non-directories and undecodable (empty) names, then read the
modification time, which can fail. -/
def readVersion (pkgName : String) (v : VEntry) : Except String (Option PackageVersion) :=
  if !v.isDir then .ok none
  else if v.name = "" then .ok none
  else if v.metadataFails then
    .error ("Failed to get metadata for: " ++ pkgName ++ "\\" ++ v.name)
  else .ok (some { name := v.name, modified := v.modified })

/-- Collecting the version list of one package directory
(main.rs lines 90-123). -/
def collectVersions (p : PEntry) : Except String (List PackageVersion) :=
  if p.readFails then .error ("Failed to read package directory: " ++ p.name)
  else p.entries.foldlM (fun acc v => (readVersion p.name v).map (fun o => acc ++ o.toList)) []

/-- The `HashMap<String, Vec<PackageVersion>>` is modelled as an
association list; iteration order of the `HashMap` is unspecified in Rust,
the model fixes insertion order (all the properties proved below are
independent of the order). -/
abbrev PkgMap := List (String × List PackageVersion)

/-- `HashMap::insert` semantics: replace the value of an existing key,
otherwise append the new binding (main.rs line 126). -/
def insertPkg (m : PkgMap) (k : String) (vs : List PackageVersion) : PkgMap :=
  if m.any (fun q => q.1 == k) then
    m.map (fun q => if q.1 == k then (k, vs) else q)
  else m ++ [(k, vs)]

/-- First pass of `clean_package_cache` (main.rs lines 67-128): enumerate
package directories, collect their versions, and keep the packages with at
least one version.  `rootReadFails` models `fs::read_dir(cache_path)`
returning `Err` (line 70). -/
def collectPackages (rootReadFails : Bool) (fs : CacheFS) : Except String PkgMap :=
  if rootReadFails then .error "Failed to read directory: <cache root>"
  else fs.foldlM (fun m p =>
    if !p.isDir then pure m
    else if p.name = "" then pure m
    else (collectVersions p).map (fun vs => if vs.isEmpty then m else insertPkg m p.name vs)) []

/-- The comparison used in `versions.sort_by(|a, b| b.modified.cmp(&a.modified))`
(main.rs line 137): `a` sorts no later than `b` when `b.modified ≤ a.modified`,
so the sorted order is by modification time descending. -/
def versionLe (a b : PackageVersion) : Bool := decide (b.modified ≤ a.modified)

/-- `versions.sort_by(...)` (main.rs line 137); Rust's `sort_by` is a stable
sort, as is `List.mergeSort`. -/
def sortVersions (vs : List PackageVersion) : List PackageVersion :=
  vs.mergeSort versionLe

/-- `let to_keep = versions.iter().take(2)` (main.rs line 152). -/
def toKeep (vs : List PackageVersion) : List PackageVersion := (sortVersions vs).take 2

/-- `let to_delete = versions.iter().skip(2)` (main.rs line 153). -/
def toDelete (vs : List PackageVersion) : List PackageVersion := (sortVersions vs).drop 2

/-- Whether `fs::remove_dir_all` would fail on the version directory
`pkg\ver` in the current tree: the target directory entry carries a set
`removeFails` flag. -/
def removeFailsAt (fs : CacheFS) (pkg ver : String) : Bool :=
  fs.any (fun p => p.isDir && p.name == pkg &&
    p.entries.any (fun v => v.isDir && v.name == ver && v.removeFails))

/-- `fs::remove_dir_all(&version.path)` (main.rs line 167): on success the
version directory named `ver` disappears from the package directory named
`pkg`. -/
def removeVersionDir (fs : CacheFS) (pkg ver : String) : Except String CacheFS :=
  if removeFailsAt fs pkg ver then
    .error ("Failed to delete directory: " ++ pkg ++ "\\" ++ ver)
  else
    .ok (fs.map (fun p =>
      if p.isDir && p.name == pkg then
        { p with entries := p.entries.filter (fun v => !(v.isDir && v.name == ver)) }
      else p))

/-- State threaded through the second pass of `clean_package_cache`: the
current tree, the two counters (main.rs lines 131-132), the printed
delete paths ("Would delete:" / "Deleting:", lines 164/166), and the
pending `?`-propagated error. -/
structure Pass2State where
  fs : CacheFS
  totalKept : Nat
  totalDeleted : Nat
  deleteLog : List (String × String)
  failure : Option String
deriving DecidableEq, Repr

/-- One iteration of the delete loop (main.rs lines 162-171).  The path is
printed before the removal is attempted, and `total_deleted` is only
incremented after a successful removal (the `?` on line 168 aborts first). -/
def deleteOne (dryRun : Bool) (pkg : String) (st : Pass2State) (v : PackageVersion) : Pass2State :=
  if st.failure.isSome then st
  else if dryRun then
    { st with
      deleteLog := st.deleteLog ++ [(pkg, v.name)]
      totalDeleted := st.totalDeleted + 1 }
  else
    let st1 := { st with deleteLog := st.deleteLog ++ [(pkg, v.name)] }
    match removeVersionDir st1.fs pkg v.name with
    | .ok fs2 => { st1 with fs := fs2, totalDeleted := st1.totalDeleted + 1 }
    | .error e => { st1 with failure := some e }

/-- One iteration of the per-package loop (main.rs lines 135-172): count
the kept versions, then run the delete loop. -/
def processPackage (dryRun : Bool) (st : Pass2State) (pkg : String × List PackageVersion) : Pass2State :=
  if st.failure.isSome then st
  else
    let st1 := { st with totalKept := st.totalKept + (toKeep pkg.2).length }
    (toDelete pkg.2).foldl (deleteOne dryRun pkg.1) st1

/-- Observable outcome of `clean_package_cache`: the final tree, the three
summary numbers (main.rs lines 174-181), the printed delete paths, the
propagated error if any, and whether the summary block was reached
(it is printed exactly when no `?` fired). -/
structure CleanResult where
  fs : CacheFS
  packagesProcessed : Nat
  totalKept : Nat
  totalDeleted : Nat
  deleteLog : List (String × String)
  failure : Option String
  summaryPrinted : Bool
deriving DecidableEq, Repr

/-- `clean_package_cache` (main.rs lines 66-184): collect, then clean each
package, then print the summary. -/
def clean_package_cache (fs : CacheFS) (rootReadFails dryRun : Bool) : CleanResult :=
  match collectPackages rootReadFails fs with
  | .error e =>
    { fs := fs, packagesProcessed := 0, totalKept := 0, totalDeleted := 0
      deleteLog := [], failure := some e, summaryPrinted := false }
  | .ok pkgs =>
    let st := pkgs.foldl (processPackage dryRun) ⟨fs, 0, 0, [], none⟩
    { fs := st.fs, packagesProcessed := pkgs.length, totalKept := st.totalKept
      totalDeleted := st.totalDeleted, deleteLog := st.deleteLog
      failure := st.failure, summaryPrinted := st.failure.isNone }

/-- `TWO_MONTHS_IN_SECONDS` (main.rs line 12): 60 days. -/
def TWO_MONTHS_IN_SECONDS : Nat := 60 * 24 * 60 * 60

/-- `Duration::from_secs(TWO_MONTHS_IN_SECONDS)` (main.rs line 187),
in nanoseconds, the resolution of `Duration`. -/
def twoMonthsDuration : Nat := TWO_MONTHS_IN_SECONDS * 1000000000

/-- `SystemTime::duration_since` (main.rs line 219): `Err` — modelled as
`none` — exactly when the argument is later than `self`. -/
def duration_since (now earlier : Nat) : Option Nat :=
  if earlier ≤ now then some (now - earlier) else none

/-- `now.duration_since(modified).unwrap_or(Duration::ZERO)`
(main.rs line 219). -/
def taskAge (now modified : Nat) : Nat := (duration_since now modified).getD 0

/-- A directory entry inside a Roo tasks base directory (main.rs
lines 204-213).  `hasCheckpoints` models `task_path.join("checkpoints").exists()`
(line 229) and `checkpointsIsDir` whether that existing entry is a
directory (`remove_dir_all` fails on a non-directory); `metadataFails`
models `fs::metadata` or `Metadata::modified` failing (lines 215-218). -/
structure TaskEntry where
  name : String
  isDir : Bool
  modified : Nat
  metadataFails : Bool
  hasCheckpoints : Bool
  checkpointsIsDir : Bool
deriving DecidableEq, Repr

/-- State threaded through the task loop of `clean_roo_checkpoints`: the
current entries of the base directory being cleaned, the two counters
(main.rs lines 189-190), the printed checkpoint paths, and the pending
error. -/
structure TaskState where
  tasks : List TaskEntry
  tasksChecked : Nat
  checkpointsTargets : Nat
  deleteLog : List String
  failure : Option String
deriving DecidableEq, Repr

/-- One iteration of the task loop (main.rs lines 204-242): skip
non-directories, count the task, read its age (metadata can fail), keep
young tasks, skip tasks without a `checkpoints` entry, then either print
(dry run) or delete; the counter increments only when the removal did not
abort. -/
def processTask (dryRun : Bool) (now : Nat) (st : TaskState) (t : TaskEntry) : TaskState :=
  if st.failure.isSome then st
  else if !t.isDir then st
  else
    let st1 := { st with tasksChecked := st.tasksChecked + 1 }
    if t.metadataFails then
      { st1 with failure := some ("Failed to read metadata for task: " ++ t.name) }
    else if taskAge now t.modified < twoMonthsDuration then st1
    else if !t.hasCheckpoints then st1

    else if dryRun then
      { st1 with
        checkpointsTargets := st1.checkpointsTargets + 1
        deleteLog := st1.deleteLog ++ [t.name ++ "\\checkpoints"] }
    else
      let st2 := { st1 with deleteLog := st1.deleteLog ++ [t.name ++ "\\checkpoints"] }
      if t.checkpointsIsDir then
        { st2 with
          tasks := st2.tasks.map (fun u =>
            if u.isDir && u.name == t.name then { u with hasCheckpoints := false } else u)
          checkpointsTargets := st2.checkpointsTargets + 1 }
      else
        { st2 with failure := some ("Failed to delete checkpoints directory: " ++ t.name ++ "\\checkpoints") }

/-- One of the two hardcoded Roo base paths (`ROO_TASK_PATHS`, main.rs
lines 8-11): whether the path exists (line 197), whether reading it fails
(line 204), and its task entries. -/
structure BaseDir where
  pathExists : Bool
  readFails : Bool
  tasks : List TaskEntry
deriving DecidableEq, Repr

/-- Accumulator of the base-directory loop (main.rs lines 194-243):
already-processed bases, the counters, the printed paths, the pending
error. -/
structure RooAcc where
  bases : List BaseDir
  tasksChecked : Nat
  checkpointsTargets : Nat
  deleteLog : List String
  failure : Option String
deriving DecidableEq, Repr

/-- One iteration of the base-directory loop (main.rs lines 194-243):
skip missing bases, fail on an unreadable base, otherwise run the task
loop on a snapshot of the base's entries. -/
def processBase (dryRun : Bool) (now : Nat) (acc : RooAcc) (b : BaseDir) : RooAcc :=
  if acc.failure.isSome then { acc with bases := acc.bases ++ [b] }
  else if !b.pathExists then { acc with bases := acc.bases ++ [b] }
  else if b.readFails then
    { acc with
      bases := acc.bases ++ [b]
      failure := some "Failed to read Roo tasks directory" }
  else
    let ts := b.tasks.foldl (processTask dryRun now)
      ⟨b.tasks, acc.tasksChecked, acc.checkpointsTargets, acc.deleteLog, none⟩
    { bases := acc.bases ++ [{ b with tasks := ts.tasks }]
      tasksChecked := ts.tasksChecked
      checkpointsTargets := ts.checkpointsTargets
      deleteLog := ts.deleteLog
      failure := ts.failure }

/-- Observable outcome of `clean_roo_checkpoints`: the final bases, the
two summary numbers (main.rs lines 245-251), the printed paths, the
propagated error, and whether the summary was reached. -/
structure RooOutcome where
  bases : List BaseDir
  tasksChecked : Nat
  checkpointsTargets : Nat
  deleteLog : List String
  failure : Option String
  summaryPrinted : Bool
deriving DecidableEq, Repr

/-- `clean_roo_checkpoints` (main.rs lines 186-254). -/
def clean_roo_checkpoints (dryRun : Bool) (now : Nat) (bases : List BaseDir) : RooOutcome :=
  let acc := bases.foldl (processBase dryRun now) ⟨[], 0, 0, [], none⟩
  { bases := acc.bases, tasksChecked := acc.tasksChecked
    checkpointsTargets := acc.checkpointsTargets, deleteLog := acc.deleteLog
    failure := acc.failure, summaryPrinted := acc.failure.isNone }

/-- `main` (main.rs lines 36-64): clean the package cache when the path is
an existing directory; otherwise bail out unless `--clean-roo-checkpoints`
was passed; finally run the checkpoint pruner when requested.  The result
is `Except.error` exactly when the process exits with a non-zero status,
and the error string is the printed message. -/
def mainRun (pathExists pathIsDir cleanRoo dryRun : Bool) (path : String)
    (fs : CacheFS) (rootReadFails : Bool) (now : Nat) (bases : List BaseDir) :
    Except String Unit :=
  if pathExists && pathIsDir then
    match (clean_package_cache fs rootReadFails dryRun).failure with
    | some e => .error e
    | none =>
      if cleanRoo then
        match (clean_roo_checkpoints dryRun now bases).failure with
        | some e => .error e
        | none => .ok ()
      else .ok ()
  else if !cleanRoo then
    if !pathExists then .error ("Path does not exist: " ++ path)
    else .error ("Path is not a directory: " ++ path)
  else
    match (clean_roo_checkpoints dryRun now bases).failure with
    | some e => .error e
    | none => .ok ()

/-- A version-directory candidate: a directory with a decodable, nonempty
name (the skip conditions of main.rs lines 98-109). -/
def vGood (v : VEntry) : Bool := v.isDir && !(v.name == "")

/-- The versions the first pass collects from a package directory when no
filesystem call fails. -/
def versionsOf (p : PEntry) : List PackageVersion :=
  (p.entries.filter vGood).map (fun v => { name := v.name, modified := v.modified })

/-- A package-directory candidate: a directory with a decodable, nonempty
name (the skip conditions of main.rs lines 76-87). -/
def goodDir (p : PEntry) : Bool := p.isDir && !(p.name == "")

/-- Names of the package-directory candidates; a real directory listing
never repeats a name, which is the `Nodup` hypothesis used below. -/
def pkgNames (fs : CacheFS) : List String := (fs.filter goodDir).map (fun p => p.name)

/-- Names of the version-directory candidates of one package. -/
def verNames (p : PEntry) : List String := (p.entries.filter vGood).map (fun v => v.name)

/-- No filesystem call fails anywhere in the tree. -/
def noFailures (fs : CacheFS) : Bool :=
  fs.all (fun p => !p.readFails &&
    p.entries.all (fun v => !v.metadataFails && !v.removeFails))

/-- No filesystem call of the first pass fails: directory reads and
metadata reads succeed (removals may still fail). -/
def noCollectFailsFS (fs : CacheFS) : Bool :=
  fs.all (fun p => !p.readFails && p.entries.all (fun v => !v.metadataFails))

/-- Removing a set of version directories (given as package-name /
version-name pairs) from a tree; the cumulative effect of the successful
`remove_dir_all` calls. -/
def scrub (D : List (String × String)) (p : PEntry) : PEntry :=
  if p.isDir then
    { p with entries := p.entries.filter (fun v => !(v.isDir && D.contains (p.name, v.name))) }
  else p

/-- All delete targets of a collected package map. -/
def deleteSet (pkgs : PkgMap) : List (String × String) :=
  pkgs.flatMap (fun q => (toDelete q.2).map (fun v => (q.1, v.name)))

/-- The delete targets contributed by one package. -/
def pairsOf (pkg : String) (l : List PackageVersion) : List (String × String) :=
  l.map (fun v => (pkg, v.name))

/-- No `remove_dir_all` call fails anywhere in the tree. -/
def noRemoveFailsFS (fs : CacheFS) : Bool :=
  fs.all (fun p => p.entries.all (fun v => !v.removeFails))

/-- No filesystem call of the checkpoint pruner fails: existing bases are
readable, task metadata is readable, and every `checkpoints` entry of an
old-enough task is a directory, so `remove_dir_all` succeeds on it. -/
def rooNoFailures (now : Nat) (bases : List BaseDir) : Bool :=
  bases.all (fun b => !b.pathExists || (!b.readFails && b.tasks.all (fun t =>
    !t.isDir || (!t.metadataFails &&
      (decide (taskAge now t.modified < twoMonthsDuration) || !t.hasCheckpoints ||
        t.checkpointsIsDir)))))

/-- A package entry that survives collection: a directory with a nonempty
name and at least one collected version (main.rs line 125). -/
def goodPkg (p : PEntry) : Bool := goodDir p && !(versionsOf p).isEmpty

/-- The keys of the collected package map. -/
def keysOf (m : PkgMap) : List String := m.map (fun q => q.1)

/-! Concrete fixtures, used by the witness theorems.  `exampleCache` is the
worked example of the specification: `pkgA` with versions `1.0` (t=100),
`1.1` (t=200), `1.2` (t=300) and `pkgB` with version `2.0` (t=50). -/

/-- A plain version directory with no failing filesystem calls. -/
def vdir (n : String) (m : Nat) : VEntry :=
  { name := n, isDir := true, modified := m, metadataFails := false, removeFails := false }

/-- A plain package directory with no failing filesystem calls. -/
def pdir (n : String) (vs : List VEntry) : PEntry :=
  { name := n, isDir := true, readFails := false, entries := vs }

/-- The specification's worked example cache. -/
def exampleCache : CacheFS :=
  [pdir "pkgA" [vdir "1.0" 100, vdir "1.1" 200, vdir "1.2" 300],
   pdir "pkgB" [vdir "2.0" 50]]

/-- A cache whose oldest version directory of `pkgC` cannot be removed:
the live run's `remove_dir_all` fails there. -/
def failCache : CacheFS :=
  [pdir "pkgC"
    [{ name := "0.9", isDir := true, modified := 10, metadataFails := false, removeFails := true },
     vdir "1.0" 100, vdir "1.1" 200, vdir "1.2" 300]]

/-- An old task directory (modification time 0) with a `checkpoints`
subdirectory. -/
def oldTask : TaskEntry :=
  { name := "task-old", isDir := true, modified := 0, metadataFails := false
    hasCheckpoints := true, checkpointsIsDir := true }

/-- An old task directory with no `checkpoints` entry at all. -/
def oldTaskNoCk : TaskEntry :=
  { name := "task-bare", isDir := true, modified := 0, metadataFails := false
    hasCheckpoints := false, checkpointsIsDir := false }

/-- An old task directory whose `checkpoints` entry exists but is a plain
file, not a directory. -/
def oldTaskFileCk : TaskEntry :=
  { name := "task-file", isDir := true, modified := 0, metadataFails := false
    hasCheckpoints := true, checkpointsIsDir := false }

/-- A task directory whose modification time lies in the future. -/
def futureTask (now : Nat) : TaskEntry :=
  { name := "task-future", isDir := true, modified := now + 1, metadataFails := false
    hasCheckpoints := true, checkpointsIsDir := true }

/-! ### The retention partition (sort, take 2, skip 2) -/

theorem versionLe_trans (a b c : PackageVersion) :
    versionLe a b → versionLe b c → versionLe a c := by
  simp only [versionLe, decide_eq_true_eq]
  omega

theorem versionLe_total (a b : PackageVersion) : versionLe a b || versionLe b a := by
  simp only [versionLe, Bool.or_eq_true, decide_eq_true_eq]
  omega

/-- The sorted version list is a permutation of the input. -/
theorem sortVersions_perm (vs : List PackageVersion) : (sortVersions vs).Perm vs :=
  List.mergeSort_perm vs versionLe

/-- The sorted version list is ordered by modification time descending. -/
theorem sortVersions_pairwise (vs : List PackageVersion) :
    (sortVersions vs).Pairwise (fun a b => b.modified ≤ a.modified) := by
  have h : (List.mergeSort vs versionLe).Pairwise (fun a b => versionLe a b) :=
    List.sorted_mergeSort
      (fun a b c hab hbc => versionLe_trans a b c hab hbc)
      (fun a b => versionLe_total a b) vs
  exact h.imp (fun hab => by simpa [versionLe] using hab)

theorem sortVersions_length (vs : List PackageVersion) :
    (sortVersions vs).length = vs.length :=
  (sortVersions_perm vs).length_eq

/-- The keep-set and the delete-set split the sorted list. -/
theorem toKeep_append_toDelete (vs : List PackageVersion) :
    toKeep vs ++ toDelete vs = sortVersions vs :=
  List.take_append_drop 2 (sortVersions vs)

/-- The keep-set and the delete-set together are exactly the versions:
no overlap, no omission. -/
theorem keep_delete_perm (vs : List PackageVersion) :
    (toKeep vs ++ toDelete vs).Perm vs := by
  rw [toKeep_append_toDelete]
  exact sortVersions_perm vs

theorem toKeep_length (vs : List PackageVersion) :
    (toKeep vs).length = min vs.length 2 := by
  simp [toKeep, sortVersions_length, Nat.min_comm]

theorem toDelete_length (vs : List PackageVersion) :
    (toDelete vs).length = vs.length - 2 := by
  simp [toDelete, sortVersions_length]

/-- Every deleted version is no newer than every kept version. -/
theorem toDelete_le_toKeep (vs : List PackageVersion) :
    ∀ k ∈ toKeep vs, ∀ d ∈ toDelete vs, d.modified ≤ k.modified := by
  have h := sortVersions_pairwise vs
  rw [← toKeep_append_toDelete vs] at h
  exact (List.pairwise_append.mp h).2.2

/-- A package with at most two versions has an empty delete-set. -/
theorem toDelete_eq_nil (vs : List PackageVersion) (h : vs.length ≤ 2) :
    toDelete vs = [] := by
  apply List.eq_nil_of_length_eq_zero
  rw [toDelete_length]
  omega

/-! ### Cumulative effect of version-directory removals (`scrub`) -/

theorem any_congr_mem {α : Type} (l : List α) (p q : α → Bool)
    (h : ∀ a ∈ l, p a = q a) : l.any p = l.any q := by
  induction l with
  | nil => rfl
  | cons a t ih =>
    simp only [List.any_cons]
    rw [h a (List.mem_cons_self a t), ih (fun b hb => h b (List.mem_cons_of_mem a hb))]

theorem scrub_nil (p : PEntry) : scrub [] p = p := by
  cases p
  simp [scrub]

theorem scrub_comp (D1 D2 : List (String × String)) (p : PEntry) :
    scrub D2 (scrub D1 p) = scrub (D1 ++ D2) p := by
  cases p with
  | mk name isDir readFails entries =>
    cases isDir with
    | false => simp [scrub]
    | true =>
      simp only [scrub, if_pos, List.filter_filter]
      refine congrArg _ ?_
      apply List.filter_congr
      intro v hv
      cases hd : v.isDir with
      | false => simp [hd]
      | true =>
        cases hc1 : D1.contains (name, v.name) <;>
          cases hc2 : D2.contains (name, v.name) <;>
            simp_all [List.contains, List.mem_append]

theorem map_scrub_nil (fs : CacheFS) : fs.map (scrub []) = fs := by
  rw [List.map_congr_left (fun p _ => scrub_nil p), List.map_id']

theorem map_scrub_comp (fs : CacheFS) (D1 D2 : List (String × String)) :
    (fs.map (scrub D1)).map (scrub D2) = fs.map (scrub (D1 ++ D2)) := by
  rw [List.map_map]
  exact List.map_congr_left (fun p _ => scrub_comp D1 D2 p)

theorem scrub_name (D : List (String × String)) (p : PEntry) :
    (scrub D p).name = p.name := by
  unfold scrub
  split <;> rfl

theorem scrub_isDir (D : List (String × String)) (p : PEntry) :
    (scrub D p).isDir = p.isDir := by
  unfold scrub
  split <;> rfl

theorem scrub_readFails (D : List (String × String)) (p : PEntry) :
    (scrub D p).readFails = p.readFails := by
  unfold scrub
  split <;> rfl

theorem scrub_entries_sublist (D : List (String × String)) (p : PEntry) :
    (scrub D p).entries.Sublist p.entries := by
  unfold scrub
  split
  · exact List.filter_sublist p.entries
  · exact List.Sublist.refl p.entries

theorem noFailures_scrub (fs : CacheFS) (D : List (String × String))
    (h : noFailures fs = true) : noFailures (fs.map (scrub D)) = true := by
  simp only [noFailures, List.all_eq_true, List.mem_map] at h ⊢
  rintro q ⟨p, hp, rfl⟩
  have hp' := h p hp
  simp only [Bool.and_eq_true] at hp' ⊢
  refine ⟨by rw [scrub_readFails]; exact hp'.1, ?_⟩
  simp only [List.all_eq_true] at hp' ⊢
  intro v hv
  exact hp'.2 v (List.Sublist.mem hv (scrub_entries_sublist D p))

theorem noRemoveFails_of_noFailures (fs : CacheFS) (h : noFailures fs = true) :
    noRemoveFailsFS fs = true := by
  simp only [noFailures, noRemoveFailsFS, List.all_eq_true, Bool.and_eq_true] at h ⊢
  intro p hp
  intro v hv
  exact ((h p hp).2 v hv).2

theorem removeFailsAt_of_noRemoveFails (fs : CacheFS) (pkg ver : String)
    (h : noRemoveFailsFS fs = true) : removeFailsAt fs pkg ver = false := by
  simp only [noRemoveFailsFS, List.all_eq_true, Bool.not_eq_true'] at h
  simp only [removeFailsAt, List.any_eq_false]
  intro p hp
  simp only [Bool.and_eq_true, List.any_eq_true, not_exists]
  rintro ⟨⟨hd, hn⟩, v, hv, hflag, hflag2⟩
  rw [h p hp v hv] at hflag2
  exact Bool.false_ne_true hflag2

theorem noRemoveFails_scrub (fs : CacheFS) (D : List (String × String))
    (h : noRemoveFailsFS fs = true) : noRemoveFailsFS (fs.map (scrub D)) = true := by
  simp only [noRemoveFailsFS, List.all_eq_true, List.mem_map] at h ⊢
  rintro q ⟨p, hp, rfl⟩
  intro v hv
  exact h p hp v (List.Sublist.mem hv (scrub_entries_sublist D p))

theorem removeFailsAt_scrub (fs : CacheFS) (D : List (String × String)) (pkg ver : String)
    (h : (pkg, ver) ∉ D) :
    removeFailsAt (fs.map (scrub D)) pkg ver = removeFailsAt fs pkg ver := by
  simp only [removeFailsAt, List.any_map]
  apply any_congr_mem
  intro p hp
  simp only [Function.comp_apply, scrub_isDir, scrub_name]
  cases hd : p.isDir with
  | false => simp
  | true =>
    cases hn : (p.name == pkg) with
    | false => simp
    | true =>
      simp only [Bool.true_and]
      unfold scrub
      simp only [hd, if_pos, List.any_filter]
      apply any_congr_mem
      intro v hv
      cases hvd : v.isDir with
      | false => simp [hvd]
      | true =>
        cases hflag : v.removeFails with
        | false => simp [hvd, hflag]
        | true =>
          cases hvn : (v.name == ver) with
          | false => simp [hvd, hflag, hvn]
          | true =>
            have hpn : p.name = pkg := by simpa using hn
            have hvn' : v.name = ver := by simpa using hvn
            simp only [hvd, hflag, hvn, List.contains, List.elem_eq_mem, Bool.true_and,
              Bool.and_true, decide_eq_false_iff_not]
            rw [hpn, hvn']
            simpa using h

/-! ### First pass: collecting the packages and their versions -/

theorem except_map_ok {ε α β : Type} (f : α → β) (a : α) :
    (Except.ok a : Except ε α).map f = .ok (f a) := rfl

theorem except_bind_ok {ε α β : Type} (a : α) (f : α → Except ε β) :
    (Except.ok a : Except ε α) >>= f = f a := rfl

theorem collectVersions_go (pkgName : String) (l : List VEntry) (acc : List PackageVersion)
    (hmeta : ∀ v ∈ l, vGood v = true → v.metadataFails = false) :
    l.foldlM (fun acc v => (readVersion pkgName v).map (fun o => acc ++ o.toList)) acc
      = .ok (acc ++ (l.filter vGood).map (fun v => { name := v.name, modified := v.modified })) := by
  induction l generalizing acc with
  | nil =>
    simp only [List.foldlM_nil, List.filter_nil, List.map_nil, List.append_nil]
    rfl
  | cons v t ih =>
    have ht : ∀ u ∈ t, vGood u = true → u.metadataFails = false :=
      fun u hu => hmeta u (List.mem_cons_of_mem v hu)
    simp only [List.foldlM_cons]
    by_cases hd : v.isDir = true
    · by_cases hn : v.name = ""
      · have hrv : readVersion pkgName v = .ok none := by simp [readVersion, hd, hn]
        rw [hrv, except_map_ok, except_bind_ok, ih _ ht]
        have hg : vGood v = false := by simp [vGood, hn]
        simp [List.filter_cons, hg]
      · have hv := hmeta v (List.mem_cons_self v t) (by simp [vGood, hd, hn])
        have hrv : readVersion pkgName v
            = .ok (some { name := v.name, modified := v.modified }) := by
          simp [readVersion, hd, hn, hv]
        rw [hrv, except_map_ok, except_bind_ok, ih _ ht]
        have hg : vGood v = true := by simp [vGood, hd, hn]
        simp [List.filter_cons, hg, List.append_assoc]
    · have hd' : v.isDir = false := by simpa using hd
      have hrv : readVersion pkgName v = .ok none := by simp [readVersion, hd']
      rw [hrv, except_map_ok, except_bind_ok, ih _ ht]
      have hg : vGood v = false := by simp [vGood, hd']
      simp [List.filter_cons, hg]

theorem collectVersions_ok (p : PEntry)
    (hrf : p.readFails = false)
    (hmeta : ∀ v ∈ p.entries, vGood v = true → v.metadataFails = false) :
    collectVersions p = .ok (versionsOf p) := by
  unfold collectVersions
  rw [hrf]
  simp only [Bool.false_eq_true, if_neg, if_false]
  rw [collectVersions_go p.name p.entries [] hmeta]
  simp [versionsOf]

theorem pkgNames_cons (p : PEntry) (t : CacheFS) :
    pkgNames (p :: t) = if goodDir p then p.name :: pkgNames t else pkgNames t := by
  simp only [pkgNames, List.filter_cons]
  split
  · simp
  · rfl

theorem name_mem_pkgNames (t : CacheFS) (q : PEntry) (hq : q ∈ t)
    (hg : goodDir q = true) : q.name ∈ pkgNames t := by
  simp only [pkgNames, List.mem_map]
  exact ⟨q, List.mem_filter.mpr ⟨hq, hg⟩, rfl⟩

theorem insertPkg_fresh (m : PkgMap) (k : String) (vs : List PackageVersion)
    (h : k ∉ keysOf m) : insertPkg m k vs = m ++ [(k, vs)] := by
  unfold insertPkg
  rw [if_neg]
  simp only [List.any_eq_true, not_exists, not_and]
  intro q hq
  simp only [beq_iff_eq]
  intro hk
  apply h
  simp only [keysOf, List.mem_map]
  exact ⟨q, hq, hk⟩

theorem noFailures_cons (p : PEntry) (t : CacheFS) (h : noFailures (p :: t) = true) :
    p.readFails = false ∧ (∀ v ∈ p.entries, v.metadataFails = false) ∧ noFailures t = true := by
  simp only [noFailures, List.all_cons, Bool.and_eq_true, List.all_eq_true,
    Bool.not_eq_true'] at h
  refine ⟨h.1.1, fun v hv => (h.1.2 v hv).1, ?_⟩
  simp only [noFailures, List.all_eq_true, Bool.and_eq_true, Bool.not_eq_true']
  intro x hx
  exact ⟨(h.2 x hx).1, fun v hv => by
    have := (h.2 x hx).2 v hv
    simp [this.1, this.2]⟩

theorem noCollectFails_cons (p : PEntry) (t : CacheFS)
    (h : noCollectFailsFS (p :: t) = true) :
    p.readFails = false ∧ (∀ v ∈ p.entries, v.metadataFails = false)
      ∧ noCollectFailsFS t = true := by
  simp only [noCollectFailsFS, List.all_cons, Bool.and_eq_true, List.all_eq_true,
    Bool.not_eq_true'] at h
  refine ⟨h.1.1, fun v hv => h.1.2 v hv, ?_⟩
  simp only [noCollectFailsFS, List.all_eq_true, Bool.and_eq_true, Bool.not_eq_true']
  intro x hx
  exact ⟨(h.2 x hx).1, fun v hv => (h.2 x hx).2 v hv⟩

theorem noCollectFails_of_noFailures (fs : CacheFS) (h : noFailures fs = true) :
    noCollectFailsFS fs = true := by
  simp only [noFailures, noCollectFailsFS, List.all_eq_true, Bool.and_eq_true,
    Bool.not_eq_true'] at h ⊢
  intro p hp
  exact ⟨(h p hp).1, fun v hv => ((h p hp).2 v hv).1⟩

theorem collectPackages_go (fs : CacheFS) (m : PkgMap)
    (hfresh : ∀ p ∈ fs, goodDir p = true → p.name ∉ keysOf m)
    (hnodup : (pkgNames fs).Nodup)
    (hnf : noCollectFailsFS fs = true) :
    fs.foldlM (fun m p =>
        if !p.isDir then pure m
        else if p.name = "" then pure m
        else (collectVersions p).map (fun vs => if vs.isEmpty then m else insertPkg m p.name vs)) m
      = .ok (m ++ (fs.filter goodPkg).map (fun p => (p.name, versionsOf p))) := by
  induction fs generalizing m with
  | nil =>
    simp only [List.foldlM_nil, List.filter_nil, List.map_nil, List.append_nil]
    rfl
  | cons p t ih =>
    obtain ⟨hrf, hmeta, hnft⟩ := noCollectFails_cons p t hnf
    have hfresht : ∀ q ∈ t, goodDir q = true → q.name ∉ keysOf m :=
      fun q hq hg => hfresh q (List.mem_cons_of_mem p hq) hg
    simp only [List.foldlM_cons]
    by_cases hd : p.isDir = true
    · by_cases hn : p.name = ""
      · have hgood : goodDir p = false := by simp [goodDir, hn]
        have hnodupt : (pkgNames t).Nodup := by
          rw [pkgNames_cons] at hnodup
          simpa [hgood] using hnodup
        have hstep : (if !p.isDir then (pure m : Except String PkgMap)
            else if p.name = "" then pure m
            else (collectVersions p).map
              (fun vs => if vs.isEmpty then m else insertPkg m p.name vs)) = .ok m := by
          simp [hd, hn]
          rfl
        rw [hstep, except_bind_ok, ih m hfresht hnodupt hnft]
        have hgp : goodPkg p = false := by simp [goodPkg, hgood]
        simp [List.filter_cons, hgp]
      · have hgood : goodDir p = true := by simp [goodDir, hd, hn]
        have hnodup' := hnodup
        rw [pkgNames_cons, if_pos (by simp [hgood])] at hnodup'
        have hnotmem : p.name ∉ pkgNames t := (List.nodup_cons.mp hnodup').1
        have hnodupt : (pkgNames t).Nodup := (List.nodup_cons.mp hnodup').2
        have hcv : collectVersions p = .ok (versionsOf p) := collectVersions_ok p hrf (fun v hv _ => hmeta v hv)
        have hstep : (if !p.isDir then (pure m : Except String PkgMap)
            else if p.name = "" then pure m
            else (collectVersions p).map
              (fun vs => if vs.isEmpty then m else insertPkg m p.name vs))
            = .ok (if (versionsOf p).isEmpty then m else insertPkg m p.name (versionsOf p)) := by
          rw [if_neg (by simp [hd]), if_neg hn, hcv, except_map_ok]
        rw [hstep, except_bind_ok]
        by_cases hemp : (versionsOf p).isEmpty = true
        · have hgp : goodPkg p = false := by simp [goodPkg, hemp]
          rw [if_pos hemp, ih m hfresht hnodupt hnft]
          simp [List.filter_cons, hgp]
        · have hgp : goodPkg p = true := by simp [goodPkg, hgood, hemp]
          have hins : insertPkg m p.name (versionsOf p) = m ++ [(p.name, versionsOf p)] :=
            insertPkg_fresh m p.name (versionsOf p) (hfresh p (List.mem_cons_self p t) hgood)
          rw [if_neg hemp, hins]
          have hfresh2 : ∀ q ∈ t, goodDir q = true →
              q.name ∉ keysOf (m ++ [(p.name, versionsOf p)]) := by
            intro q hq hg
            simp only [keysOf, List.map_append, List.mem_append, List.map_cons, List.map_nil,
              List.mem_cons, List.not_mem_nil, or_false, not_or]
            refine ⟨by simpa [keysOf] using hfresht q hq hg, ?_⟩
            intro heq
            exact hnotmem (heq ▸ name_mem_pkgNames t q hq hg)
          rw [ih (m ++ [(p.name, versionsOf p)]) hfresh2 hnodupt hnft]
          have hfc : (p :: t).filter goodPkg = p :: t.filter goodPkg := by
            simp [List.filter_cons, hgp]
          rw [hfc]
          simp [List.append_assoc]
    · have hd' : p.isDir = false := by simpa using hd
      have hgood : goodDir p = false := by simp [goodDir, hd']
      have hnodupt : (pkgNames t).Nodup := by
        rw [pkgNames_cons] at hnodup
        simpa [hgood] using hnodup
      have hstep : (if !p.isDir then (pure m : Except String PkgMap)
          else if p.name = "" then pure m
          else (collectVersions p).map
            (fun vs => if vs.isEmpty then m else insertPkg m p.name vs)) = .ok m := by
        rw [if_pos (by simp [hd'])]
        rfl
      rw [hstep, except_bind_ok, ih m hfresht hnodupt hnft]
      have hgp : goodPkg p = false := by simp [goodPkg, hgood]
      simp [List.filter_cons, hgp]

/-- Under unique package names and no filesystem failures, the first pass
returns exactly the good packages with their version lists, in order. -/
theorem collectPackages_ok (fs : CacheFS)
    (hnodup : (pkgNames fs).Nodup)
    (hnf : noCollectFailsFS fs = true) :
    collectPackages false fs
      = .ok ((fs.filter goodPkg).map (fun p => (p.name, versionsOf p))) := by
  unfold collectPackages
  rw [if_neg (by simp)]
  have h := collectPackages_go fs [] (by simp [keysOf]) hnodup hnf
  simpa using h

/-! ### Second pass: the per-package clean loop -/

theorem deleteSet_cons (q : String × List PackageVersion) (rest : PkgMap) :
    deleteSet (q :: rest) = pairsOf q.1 (toDelete q.2) ++ deleteSet rest := by
  simp [deleteSet, pairsOf]

theorem deleteOne_frozen (d : Bool) (pkg : String) (st : Pass2State) (v : PackageVersion)
    (h : st.failure.isSome = true) : deleteOne d pkg st v = st := by
  unfold deleteOne
  rw [if_pos h]

theorem foldl_deleteOne_frozen (d : Bool) (pkg : String) (l : List PackageVersion)
    (st : Pass2State) (h : st.failure.isSome = true) :
    l.foldl (deleteOne d pkg) st = st := by
  induction l with
  | nil => rfl
  | cons v t ih =>
    rw [List.foldl_cons, deleteOne_frozen d pkg st v h, ih]

theorem processPackage_frozen (d : Bool) (st : Pass2State) (q : String × List PackageVersion)
    (h : st.failure.isSome = true) : processPackage d st q = st := by
  unfold processPackage
  rw [if_pos h]

theorem foldl_processPackage_frozen (d : Bool) (pkgs : PkgMap) (st : Pass2State)
    (h : st.failure.isSome = true) :
    pkgs.foldl (processPackage d) st = st := by
  induction pkgs with
  | nil => rfl
  | cons q rest ih =>
    rw [List.foldl_cons, processPackage_frozen d st q h, ih]

theorem foldl_deleteOne_dry (pkg : String) (l : List PackageVersion) (st : Pass2State)
    (h : st.failure = none) :
    l.foldl (deleteOne true pkg) st =
      ⟨st.fs, st.totalKept, st.totalDeleted + l.length,
        st.deleteLog ++ pairsOf pkg l, none⟩ := by
  induction l generalizing st with
  | nil =>
    rw [List.foldl_nil]
    cases st
    simp_all [pairsOf]
  | cons v t ih =>
    rw [List.foldl_cons]
    have hstep : deleteOne true pkg st v =
        ⟨st.fs, st.totalKept, st.totalDeleted + 1, st.deleteLog ++ [(pkg, v.name)], st.failure⟩ := by
      unfold deleteOne
      rw [if_neg (by simp [h]), if_pos rfl]
    rw [hstep, h, ih _ rfl]
    simp [pairsOf, List.append_assoc, List.length_cons]
    omega

theorem removeVersionDir_ok (fs : CacheFS) (pkg ver : String)
    (h : removeFailsAt fs pkg ver = false) :
    removeVersionDir fs pkg ver = .ok (fs.map (scrub [(pkg, ver)])) := by
  unfold removeVersionDir
  rw [if_neg (by simp [h])]
  congr 1
  apply List.map_congr_left
  intro p hp
  unfold scrub
  by_cases hd : p.isDir = true
  · rw [if_pos hd]
    by_cases hn : p.name = pkg
    · rw [if_pos (by simp [hd, hn])]
      congr 1
      apply List.filter_congr
      intro v hv
      simp [List.contains, List.elem_eq_mem, Prod.mk.injEq, hn, Bool.beq_eq_decide_eq]
    · rw [if_neg (by simp [hd, hn])]
      have hfe : p.entries.filter
          (fun v => !(v.isDir && [(pkg, ver)].contains (p.name, v.name))) = p.entries := by
        apply List.filter_eq_self.mpr
        intro v hv
        simp [List.contains, List.elem_eq_mem, Prod.mk.injEq, hn]
      rw [hfe]
  · rw [if_neg hd, if_neg (by simp [hd])]

theorem foldl_deleteOne_live_nf (pkg : String) (l : List PackageVersion) (st : Pass2State)
    (h : st.failure = none)
    (hnr : noRemoveFailsFS st.fs = true) :
    l.foldl (deleteOne false pkg) st =
      ⟨st.fs.map (scrub (pairsOf pkg l)), st.totalKept, st.totalDeleted + l.length,
        st.deleteLog ++ pairsOf pkg l, none⟩ := by
  induction l generalizing st with
  | nil =>
    rw [List.foldl_nil]
    cases st
    simp_all [pairsOf, map_scrub_nil]
  | cons v t ih =>
    rw [List.foldl_cons]
    have hrm : removeVersionDir st.fs pkg v.name
        = .ok (st.fs.map (scrub [(pkg, v.name)])) :=
      removeVersionDir_ok st.fs pkg v.name (removeFailsAt_of_noRemoveFails st.fs pkg v.name hnr)
    have hstep : deleteOne false pkg st v =
        ⟨st.fs.map (scrub [(pkg, v.name)]), st.totalKept, st.totalDeleted + 1,
          st.deleteLog ++ [(pkg, v.name)], st.failure⟩ := by
      unfold deleteOne
      rw [if_neg (by simp [h]), if_neg (by simp)]
      simp only [hrm]
    rw [hstep, h, ih _ rfl (by simpa using noRemoveFails_scrub st.fs _ hnr)]
    rw [map_scrub_comp]
    simp [pairsOf, List.append_assoc, List.length_cons]
    omega

theorem foldl_processPackage_dry (pkgs : PkgMap) (st : Pass2State)
    (h : st.failure = none) :
    pkgs.foldl (processPackage true) st =
      ⟨st.fs, st.totalKept + (pkgs.map (fun q => (toKeep q.2).length)).sum,
        st.totalDeleted + (pkgs.map (fun q => (toDelete q.2).length)).sum,
        st.deleteLog ++ deleteSet pkgs, none⟩ := by
  induction pkgs generalizing st with
  | nil =>
    rw [List.foldl_nil]
    cases st
    simp_all [deleteSet]
  | cons q rest ih =>
    rw [List.foldl_cons]
    have hstep : processPackage true st q =
        ⟨st.fs, st.totalKept + (toKeep q.2).length, st.totalDeleted + (toDelete q.2).length,
          st.deleteLog ++ pairsOf q.1 (toDelete q.2), none⟩ := by
      unfold processPackage
      rw [if_neg (by simp [h])]
      exact foldl_deleteOne_dry q.1 (toDelete q.2) _ (by simp [h])
    rw [hstep, ih _ rfl, deleteSet_cons]
    simp [List.append_assoc, List.map_cons, List.sum_cons]
    omega

theorem foldl_processPackage_live_nf (pkgs : PkgMap) (st : Pass2State)
    (h : st.failure = none)
    (hnr : noRemoveFailsFS st.fs = true) :
    pkgs.foldl (processPackage false) st =
      ⟨st.fs.map (scrub (deleteSet pkgs)),
        st.totalKept + (pkgs.map (fun q => (toKeep q.2).length)).sum,
        st.totalDeleted + (pkgs.map (fun q => (toDelete q.2).length)).sum,
        st.deleteLog ++ deleteSet pkgs, none⟩ := by
  induction pkgs generalizing st with
  | nil =>
    rw [List.foldl_nil]
    cases st
    simp_all [deleteSet, map_scrub_nil]
  | cons q rest ih =>
    rw [List.foldl_cons]
    have hstep : processPackage false st q =
        ⟨st.fs.map (scrub (pairsOf q.1 (toDelete q.2))),
          st.totalKept + (toKeep q.2).length, st.totalDeleted + (toDelete q.2).length,
          st.deleteLog ++ pairsOf q.1 (toDelete q.2), none⟩ := by
      unfold processPackage
      rw [if_neg (by simp [h])]
      exact foldl_deleteOne_live_nf q.1 (toDelete q.2) _ (by simp [h]) hnr
    rw [hstep, ih _ rfl (by simpa using noRemoveFails_scrub st.fs _ hnr), deleteSet_cons]
    rw [map_scrub_comp]
    simp [List.append_assoc, List.map_cons, List.sum_cons]
    omega


theorem clean_package_cache_collect_error (fs : CacheFS) (rf d : Bool) (e : String)
    (hc : collectPackages rf fs = .error e) :
    clean_package_cache fs rf d = ⟨fs, 0, 0, 0, [], some e, false⟩ := by
  unfold clean_package_cache
  rw [hc]

theorem clean_package_cache_dry (fs : CacheFS) (pkgs : PkgMap)
    (hc : collectPackages false fs = .ok pkgs) :
    clean_package_cache fs false true =
      ⟨fs, pkgs.length, (pkgs.map (fun q => (toKeep q.2).length)).sum,
        (pkgs.map (fun q => (toDelete q.2).length)).sum, deleteSet pkgs, none, true⟩ := by
  unfold clean_package_cache
  rw [hc]
  have h := foldl_processPackage_dry pkgs ⟨fs, 0, 0, [], none⟩ rfl
  simp only [h]
  simp

theorem clean_package_cache_live_nf (fs : CacheFS) (pkgs : PkgMap)
    (hc : collectPackages false fs = .ok pkgs)
    (hnr : noRemoveFailsFS fs = true) :
    clean_package_cache fs false false =
      ⟨fs.map (scrub (deleteSet pkgs)), pkgs.length,
        (pkgs.map (fun q => (toKeep q.2).length)).sum,
        (pkgs.map (fun q => (toDelete q.2).length)).sum, deleteSet pkgs, none, true⟩ := by
  unfold clean_package_cache
  rw [hc]
  have h := foldl_processPackage_live_nf pkgs ⟨fs, 0, 0, [], none⟩ rfl hnr
  simp only [h]
  simp

theorem foldl_deleteOne_dry_fs (pkg : String) (l : List PackageVersion) (st : Pass2State) :
    (l.foldl (deleteOne true pkg) st).fs = st.fs := by
  induction l generalizing st with
  | nil => rfl
  | cons v t ih =>
    rw [List.foldl_cons, ih]
    unfold deleteOne
    split
    · rfl
    · rfl

theorem foldl_processPackage_dry_fs (pkgs : PkgMap) (st : Pass2State) :
    (pkgs.foldl (processPackage true) st).fs = st.fs := by
  induction pkgs generalizing st with
  | nil => rfl
  | cons q rest ih =>
    rw [List.foldl_cons, ih]
    unfold processPackage
    split
    · rfl
    · exact foldl_deleteOne_dry_fs q.1 (toDelete q.2) _

/-- A dry run of the package cleaner never changes the tree, whatever the
tree and whether or not any filesystem call fails. -/
theorem clean_package_cache_dry_fs (fs : CacheFS) (rf : Bool) :
    (clean_package_cache fs rf true).fs = fs := by
  unfold clean_package_cache
  cases hc : collectPackages rf fs with
  | error e => rfl
  | ok pkgs =>
    simp only []
    exact foldl_processPackage_dry_fs pkgs ⟨fs, 0, 0, [], none⟩

/-! ### Which versions survive a live run -/

theorem versionsOf_names (p : PEntry) :
    (versionsOf p).map (fun v => v.name) = verNames p := by
  simp [versionsOf, verNames, List.map_map]

theorem goodDir_scrub (D : List (String × String)) (p : PEntry) :
    goodDir (scrub D p) = goodDir p := by
  simp [goodDir, scrub_isDir, scrub_name]

theorem pkgNames_map_scrub (fs : CacheFS) (D : List (String × String)) :
    pkgNames (fs.map (scrub D)) = pkgNames fs := by
  unfold pkgNames
  rw [List.filter_map]
  rw [List.map_map]
  have h1 : (goodDir ∘ scrub D) = goodDir := by
    funext p
    exact goodDir_scrub D p
  rw [h1]
  apply List.map_congr_left
  intro p hp
  exact scrub_name D p

theorem verNames_scrub_sublist (D : List (String × String)) (p : PEntry) :
    (verNames (scrub D p)).Sublist (verNames p) := by
  unfold verNames
  exact ((scrub_entries_sublist D p).filter vGood).map (fun v => v.name)

theorem mem_deleteSet_iff (pkgs : PkgMap) (a x : String) :
    (a, x) ∈ deleteSet pkgs ↔ ∃ q ∈ pkgs, q.1 = a ∧ ∃ v ∈ toDelete q.2, v.name = x := by
  simp only [deleteSet, List.mem_flatMap, List.mem_map, Prod.mk.injEq]
  constructor
  · rintro ⟨q, hq, v, hv, rfl, rfl⟩
    exact ⟨q, hq, rfl, v, hv, rfl⟩
  · rintro ⟨q, hq, rfl, v, hv, rfl⟩
    exact ⟨q, hq, v, hv, rfl, rfl⟩

/-- Which delete targets hit a given good package entry: under unique
package names, exactly the names in its own delete-set. -/
theorem contains_deleteSet (fs : CacheFS) (p : PEntry) (x : String)
    (hp : p ∈ fs) (hg : goodDir p = true)
    (hnodup : (pkgNames fs).Nodup) :
    (deleteSet ((fs.filter goodPkg).map (fun q => (q.name, versionsOf q)))).contains (p.name, x)
      = ((toDelete (versionsOf p)).map (fun v => v.name)).contains x := by
  simp only [List.contains, List.elem_eq_mem]
  rw [decide_eq_decide]
  rw [mem_deleteSet_iff]
  simp only [List.mem_map, List.mem_filter]
  constructor
  · rintro ⟨q, ⟨q0, ⟨hq0, hq0g⟩, rfl⟩, hname, v, hv, rfl⟩
    have hq0d : goodDir q0 = true := by
      simp only [goodPkg, Bool.and_eq_true] at hq0g
      exact hq0g.1
    have : q0 = p :=
      List.inj_on_of_nodup_map hnodup (List.mem_filter.mpr ⟨hq0, hq0d⟩)
        (List.mem_filter.mpr ⟨hp, hg⟩) hname
    subst this
    exact ⟨v, hv, rfl⟩
  · rintro ⟨v, hv, rfl⟩
    refine ⟨(p.name, versionsOf p), ⟨p, ⟨hp, ?_⟩, rfl⟩, rfl, v, hv, rfl⟩
    have hne : versionsOf p ≠ [] := by
      intro hnil
      rw [hnil] at hv
      simp [toDelete, sortVersions] at hv
    simp [goodPkg, hg, hne]

/-- Effect of a live run on one good package entry: its version candidates
are filtered down to those whose name is not in its delete-set. -/
theorem versionsOf_scrub (fs : CacheFS) (p : PEntry)
    (hp : p ∈ fs) (hg : goodDir p = true)
    (hnodup : (pkgNames fs).Nodup) :
    versionsOf (scrub (deleteSet ((fs.filter goodPkg).map (fun q => (q.name, versionsOf q)))) p)
      = (versionsOf p).filter
          (fun pv => !(((toDelete (versionsOf p)).map (fun v => v.name)).contains pv.name)) := by
  have hd : p.isDir = true := by
    simp only [goodDir, Bool.and_eq_true] at hg
    exact hg.1
  unfold scrub
  rw [if_pos hd]
  unfold versionsOf
  simp only [List.filter_filter]
  rw [List.filter_map, List.filter_filter]
  congr 1
  apply List.filter_congr
  intro v hv
  by_cases hvg : vGood v = true
  · have hvd : v.isDir = true := by
      simp only [vGood, Bool.and_eq_true] at hvg
      exact hvg.1
    simp only [hvg, Bool.and_true, Function.comp, hvd, Bool.true_and]
    exact congrArg (fun b => !b) (contains_deleteSet fs p v.name hp hg hnodup)
  · have hvg' : vGood v = false := by simpa using hvg
    simp [hvg']

/-- Among versions with pairwise distinct names, the survivors of the
deletions are exactly the keep-set. -/
theorem filter_not_deleted_perm (vs : List PackageVersion)
    (hnd : (vs.map (fun v => v.name)).Nodup) :
    (vs.filter
        (fun pv => !(((toDelete vs).map (fun v => v.name)).contains pv.name))).Perm
      (toKeep vs) := by
  have hperm : (sortVersions vs).Perm vs := sortVersions_perm vs
  have hnds : ((sortVersions vs).map (fun v => v.name)).Nodup :=
    ((hperm.map (fun v => v.name)).symm).nodup hnd
  have hsplit : sortVersions vs = toKeep vs ++ toDelete vs := (toKeep_append_toDelete vs).symm
  have h1 : (vs.filter
      (fun pv => !(((toDelete vs).map (fun v => v.name)).contains pv.name))).Perm
      ((sortVersions vs).filter
        (fun pv => !(((toDelete vs).map (fun v => v.name)).contains pv.name))) :=
    (hperm.filter _).symm
  refine h1.trans ?_
  rw [hsplit, List.filter_append]
  have hnds2 : ((toKeep vs).map (fun v => v.name)
      ++ (toDelete vs).map (fun v => v.name)).Nodup := by
    rw [hsplit] at hnds
    simpa [List.map_append] using hnds
  have hdisj : ∀ a ∈ (toKeep vs).map (fun v => v.name),
      a ∉ (toDelete vs).map (fun v => v.name) :=
    (List.nodup_append.mp hnds2).2.2
  have hdel : (toDelete vs).filter
      (fun pv => !(((toDelete vs).map (fun v => v.name)).contains pv.name)) = [] := by
    rw [List.filter_eq_nil_iff]
    intro d hd
    simp only [List.contains, List.elem_eq_mem, Bool.not_eq_true', decide_eq_false_iff_not,
      Decidable.not_not]
    exact List.mem_map.mpr ⟨d, hd, rfl⟩
  have hkeep : (toKeep vs).filter
      (fun pv => !(((toDelete vs).map (fun v => v.name)).contains pv.name)) = toKeep vs := by
    rw [List.filter_eq_self]
    intro k hk
    simp only [List.contains, List.elem_eq_mem, Bool.not_eq_true', decide_eq_false_iff_not]
    exact hdisj k.name (List.mem_map.mpr ⟨k, hk, rfl⟩)
  rw [hdel, hkeep, List.append_nil]

/-- Survivors of a live run in one good package: a permutation of the
keep-set. -/
theorem versionsOf_scrub_perm (fs : CacheFS) (p : PEntry)
    (hp : p ∈ fs) (hg : goodDir p = true)
    (hnodup : (pkgNames fs).Nodup) (hvnd : (verNames p).Nodup) :
    (versionsOf (scrub (deleteSet ((fs.filter goodPkg).map (fun q => (q.name, versionsOf q)))) p)).Perm
      (toKeep (versionsOf p)) := by
  rw [versionsOf_scrub fs p hp hg hnodup]
  apply filter_not_deleted_perm
  rw [versionsOf_names]
  exact hvnd

theorem versionsOf_scrub_length (fs : CacheFS) (p : PEntry)
    (hp : p ∈ fs) (hg : goodDir p = true)
    (hnodup : (pkgNames fs).Nodup) (hvnd : (verNames p).Nodup) :
    (versionsOf (scrub (deleteSet ((fs.filter goodPkg).map (fun q => (q.name, versionsOf q)))) p)).length
      = min (versionsOf p).length 2 := by
  rw [(versionsOf_scrub_perm fs p hp hg hnodup hvnd).length_eq]
  exact toKeep_length (versionsOf p)

theorem verNames_nodup_scrub (D : List (String × String)) (p : PEntry)
    (hvnd : (verNames p).Nodup) : (verNames (scrub D p)).Nodup :=
  hvnd.sublist (verNames_scrub_sublist D p)

/-- After one live run with unique names and no failures, every package of
the cleaned tree holds at most two version candidates, so nothing is left
to delete. -/
theorem toDelete_after_live (fs : CacheFS)
    (hnodup : (pkgNames fs).Nodup)
    (hvnd : ∀ p ∈ fs, (verNames p).Nodup) :
    ∀ q ∈ ((fs.map (scrub (deleteSet ((fs.filter goodPkg).map
        (fun q => (q.name, versionsOf q)))))).filter goodPkg).map (fun q => (q.name, versionsOf q)),
      toDelete q.2 = [] := by
  rintro q hq
  simp only [List.mem_map, List.mem_filter] at hq
  obtain ⟨p1, ⟨⟨p, hp, rfl⟩, hp1g⟩, rfl⟩ := hq
  have hg : goodDir p = true := by
    have := (Bool.and_eq_true _ _).mp hp1g
    rw [goodDir_scrub] at this
    exact this.1
  apply toDelete_eq_nil
  rw [versionsOf_scrub_length fs p hp hg hnodup (hvnd p hp)]
  omega

/-- The second collected delete-set is empty. -/
theorem deleteSet_after_live (fs : CacheFS)
    (hnodup : (pkgNames fs).Nodup)
    (hvnd : ∀ p ∈ fs, (verNames p).Nodup) :
    deleteSet
      (((fs.map (scrub (deleteSet ((fs.filter goodPkg).map (fun q => (q.name, versionsOf q)))))).filter
          goodPkg).map (fun q => (q.name, versionsOf q))) = [] := by
  unfold deleteSet
  rw [List.flatMap_eq_nil_iff]
  intro q hq
  rw [toDelete_after_live fs hnodup hvnd q hq]
  rfl

theorem collectPackages_exists_go (fs : CacheFS) :
    ∀ m : PkgMap, noCollectFailsFS fs = true → ∃ r, fs.foldlM (fun m p =>
      if !p.isDir then pure m
      else if p.name = "" then pure m
      else (collectVersions p).map
        (fun vs => if vs.isEmpty then m else insertPkg m p.name vs)) m = .ok r := by
  induction fs with
  | nil => exact fun m _ => ⟨m, rfl⟩
  | cons p t ih =>
    intro m hnf
    obtain ⟨hrf, hmeta, hnft⟩ := noCollectFails_cons p t hnf
    simp only [List.foldlM_cons]
    by_cases hd : p.isDir = true
    · by_cases hn : p.name = ""
      · have hstep : (if !p.isDir then (pure m : Except String PkgMap)
            else if p.name = "" then pure m
            else (collectVersions p).map
              (fun vs => if vs.isEmpty then m else insertPkg m p.name vs)) = .ok m := by
          rw [if_neg (by simp [hd]), if_pos hn]
          rfl
        rw [hstep, except_bind_ok]
        exact ih m hnft
      · have hcv : collectVersions p = .ok (versionsOf p) := collectVersions_ok p hrf (fun v hv _ => hmeta v hv)
        have hstep : (if !p.isDir then (pure m : Except String PkgMap)
            else if p.name = "" then pure m
            else (collectVersions p).map
              (fun vs => if vs.isEmpty then m else insertPkg m p.name vs))
            = .ok (if (versionsOf p).isEmpty then m else insertPkg m p.name (versionsOf p)) := by
          rw [if_neg (by simp [hd]), if_neg hn, hcv, except_map_ok]
        rw [hstep, except_bind_ok]
        exact ih _ hnft
    · have hstep : (if !p.isDir then (pure m : Except String PkgMap)
          else if p.name = "" then pure m
          else (collectVersions p).map
            (fun vs => if vs.isEmpty then m else insertPkg m p.name vs)) = .ok m := by
        rw [if_pos (by simp [by simpa using hd])]
        rfl
      rw [hstep, except_bind_ok]
      exact ih m hnft

/-- With no read or metadata failure, the first pass always succeeds (no
uniqueness of names needed). -/
theorem collectPackages_exists (fs : CacheFS) (hnf : noCollectFailsFS fs = true) :
    ∃ pkgs, collectPackages false fs = .ok pkgs := by
  unfold collectPackages
  rw [if_neg (by simp)]
  exact collectPackages_exists_go fs [] hnf

/-! ### The checkpoint pruner: reductions of `processTask` -/

theorem processTask_frozen (d : Bool) (now : Nat) (st : TaskState) (t : TaskEntry)
    (h : st.failure.isSome = true) : processTask d now st t = st := by
  unfold processTask
  rw [if_pos h]

theorem processTask_nondir (d : Bool) (now : Nat) (st : TaskState) (t : TaskEntry)
    (hf : st.failure = none) (hd : t.isDir = false) : processTask d now st t = st := by
  unfold processTask
  rw [if_neg (by simp [hf]), if_pos (by simp [hd])]

theorem processTask_metadata_fail (d : Bool) (now : Nat) (st : TaskState) (t : TaskEntry)
    (hf : st.failure = none) (hd : t.isDir = true) (hm : t.metadataFails = true) :
    processTask d now st t =
      { st with
        tasksChecked := st.tasksChecked + 1
        failure := some ("Failed to read metadata for task: " ++ t.name) } := by
  unfold processTask
  simp [hf, hd, hm]

theorem processTask_skip_young (d : Bool) (now : Nat) (st : TaskState) (t : TaskEntry)
    (hf : st.failure = none) (hd : t.isDir = true) (hm : t.metadataFails = false)
    (hage : taskAge now t.modified < twoMonthsDuration) :
    processTask d now st t = { st with tasksChecked := st.tasksChecked + 1 } := by
  unfold processTask
  simp [hf, hd, hm, hage]

theorem processTask_no_checkpoints (d : Bool) (now : Nat) (st : TaskState) (t : TaskEntry)
    (hf : st.failure = none) (hd : t.isDir = true) (hm : t.metadataFails = false)
    (hage : ¬(taskAge now t.modified < twoMonthsDuration)) (hnc : t.hasCheckpoints = false) :
    processTask d now st t = { st with tasksChecked := st.tasksChecked + 1 } := by
  unfold processTask
  simp [hf, hd, hm, hage, hnc]

theorem processTask_dry_eligible (now : Nat) (st : TaskState) (t : TaskEntry)
    (hf : st.failure = none) (hd : t.isDir = true) (hm : t.metadataFails = false)
    (hage : ¬(taskAge now t.modified < twoMonthsDuration)) (hc : t.hasCheckpoints = true) :
    processTask true now st t =
      { st with
        tasksChecked := st.tasksChecked + 1
        checkpointsTargets := st.checkpointsTargets + 1
        deleteLog := st.deleteLog ++ [t.name ++ "\\checkpoints"] } := by
  unfold processTask
  simp [hf, hd, hm, hage, hc]

theorem processTask_live_ok (now : Nat) (st : TaskState) (t : TaskEntry)
    (hf : st.failure = none) (hd : t.isDir = true) (hm : t.metadataFails = false)
    (hage : ¬(taskAge now t.modified < twoMonthsDuration)) (hc : t.hasCheckpoints = true)
    (hcd : t.checkpointsIsDir = true) :
    processTask false now st t =
      { st with
        tasksChecked := st.tasksChecked + 1
        tasks := st.tasks.map (fun u =>
          if u.isDir && u.name == t.name then { u with hasCheckpoints := false } else u)
        checkpointsTargets := st.checkpointsTargets + 1
        deleteLog := st.deleteLog ++ [t.name ++ "\\checkpoints"] } := by
  unfold processTask
  simp [hf, hd, hm, hage, hc, hcd]

theorem processTask_live_fail (now : Nat) (st : TaskState) (t : TaskEntry)
    (hf : st.failure = none) (hd : t.isDir = true) (hm : t.metadataFails = false)
    (hage : ¬(taskAge now t.modified < twoMonthsDuration)) (hc : t.hasCheckpoints = true)
    (hcd : t.checkpointsIsDir = false) :
    processTask false now st t =
      { st with
        tasksChecked := st.tasksChecked + 1
        deleteLog := st.deleteLog ++ [t.name ++ "\\checkpoints"]
        failure := some ("Failed to delete checkpoints directory: "
          ++ t.name ++ "\\checkpoints") } := by
  unfold processTask
  simp [hf, hd, hm, hage, hc, hcd]

theorem processTask_dry_tasks (now : Nat) (st : TaskState) (t : TaskEntry) :
    (processTask true now st t).tasks = st.tasks := by
  by_cases hf : st.failure.isSome = true
  · rw [processTask_frozen true now st t hf]
  · have hf' : st.failure = none := Option.not_isSome_iff_eq_none.mp hf
    by_cases hd : t.isDir = true
    · by_cases hm : t.metadataFails = true
      · rw [processTask_metadata_fail true now st t hf' hd hm]
      · have hm' : t.metadataFails = false := by simpa using hm
        by_cases hage : taskAge now t.modified < twoMonthsDuration
        · rw [processTask_skip_young true now st t hf' hd hm' hage]
        · by_cases hc : t.hasCheckpoints = true
          · rw [processTask_dry_eligible now st t hf' hd hm' hage hc]
          · have hc' : t.hasCheckpoints = false := by simpa using hc
            rw [processTask_no_checkpoints true now st t hf' hd hm' hage hc']
    · have hd' : t.isDir = false := by simpa using hd
      rw [processTask_nondir true now st t hf' hd']

theorem foldl_processTask_dry_tasks (now : Nat) (l : List TaskEntry) (st : TaskState) :
    (l.foldl (processTask true now) st).tasks = st.tasks := by
  induction l generalizing st with
  | nil => rfl
  | cons t rest ih =>
    rw [List.foldl_cons, ih, processTask_dry_tasks]

theorem processBase_dry_bases (now : Nat) (acc : RooAcc) (b : BaseDir) :
    (processBase true now acc b).bases = acc.bases ++ [b] := by
  unfold processBase
  split
  · rfl
  split
  · rfl
  split
  · rfl
  · simp [foldl_processTask_dry_tasks]

theorem clean_roo_dry_go (now : Nat) (bases : List BaseDir) (acc : RooAcc) :
    (bases.foldl (processBase true now) acc).bases = acc.bases ++ bases := by
  induction bases generalizing acc with
  | nil => simp
  | cons b rest ih =>
    rw [List.foldl_cons, ih, processBase_dry_bases]
    simp

/-- A dry run of the checkpoint pruner never changes any base directory. -/
theorem clean_roo_dry_bases (now : Nat) (bases : List BaseDir) :
    (clean_roo_checkpoints true now bases).bases = bases := by
  unfold clean_roo_checkpoints
  simpa using clean_roo_dry_go now bases ⟨[], 0, 0, [], none⟩

theorem processTask_parallel (now : Nat) (t : TaskEntry)
    (ht : t.isDir = true → t.metadataFails = false ∧
      (taskAge now t.modified < twoMonthsDuration ∨ t.hasCheckpoints = false ∨
        t.checkpointsIsDir = true))
    (stD stL : TaskState)
    (hchecked : stD.tasksChecked = stL.tasksChecked)
    (htarg : stD.checkpointsTargets = stL.checkpointsTargets)
    (hlog : stD.deleteLog = stL.deleteLog)
    (hfD : stD.failure = none) (hfL : stL.failure = none) :
    (processTask true now stD t).tasksChecked = (processTask false now stL t).tasksChecked
    ∧ (processTask true now stD t).checkpointsTargets
        = (processTask false now stL t).checkpointsTargets
    ∧ (processTask true now stD t).deleteLog = (processTask false now stL t).deleteLog
    ∧ (processTask true now stD t).failure = none
    ∧ (processTask false now stL t).failure = none := by
  by_cases hd : t.isDir = true
  · obtain ⟨hm, hcase⟩ := ht hd
    by_cases hage : taskAge now t.modified < twoMonthsDuration
    · rw [processTask_skip_young true now stD t hfD hd hm hage,
        processTask_skip_young false now stL t hfL hd hm hage]
      exact ⟨by simp [hchecked], by simpa using htarg, by simpa using hlog,
        by simpa using hfD, by simpa using hfL⟩
    · by_cases hc : t.hasCheckpoints = true
      · have hcd : t.checkpointsIsDir = true := by
          rcases hcase with h1 | h2 | h3
          · exact absurd h1 hage
          · rw [hc] at h2
            exact absurd h2 (by simp)
          · exact h3
        rw [processTask_dry_eligible now stD t hfD hd hm hage hc,
          processTask_live_ok now stL t hfL hd hm hage hc hcd]
        exact ⟨by simp [hchecked], by simp [htarg], by simp [hlog], by simpa using hfD,
          by simpa using hfL⟩
      · have hc' : t.hasCheckpoints = false := by simpa using hc
        rw [processTask_no_checkpoints true now stD t hfD hd hm hage hc',
          processTask_no_checkpoints false now stL t hfL hd hm hage hc']
        exact ⟨by simp [hchecked], by simpa using htarg, by simpa using hlog,
          by simpa using hfD, by simpa using hfL⟩
  · have hd' : t.isDir = false := by simpa using hd
    rw [processTask_nondir true now stD t hfD hd', processTask_nondir false now stL t hfL hd']
    exact ⟨hchecked, htarg, hlog, hfD, hfL⟩

theorem foldl_processTask_parallel (now : Nat) (l : List TaskEntry)
    (hl : ∀ t ∈ l, t.isDir = true → t.metadataFails = false ∧
      (taskAge now t.modified < twoMonthsDuration ∨ t.hasCheckpoints = false ∨
        t.checkpointsIsDir = true))
    (stD stL : TaskState)
    (hchecked : stD.tasksChecked = stL.tasksChecked)
    (htarg : stD.checkpointsTargets = stL.checkpointsTargets)
    (hlog : stD.deleteLog = stL.deleteLog)
    (hfD : stD.failure = none) (hfL : stL.failure = none) :
    (l.foldl (processTask true now) stD).tasksChecked
        = (l.foldl (processTask false now) stL).tasksChecked
    ∧ (l.foldl (processTask true now) stD).checkpointsTargets
        = (l.foldl (processTask false now) stL).checkpointsTargets
    ∧ (l.foldl (processTask true now) stD).deleteLog
        = (l.foldl (processTask false now) stL).deleteLog
    ∧ (l.foldl (processTask true now) stD).failure = none
    ∧ (l.foldl (processTask false now) stL).failure = none := by
  induction l generalizing stD stL with
  | nil => exact ⟨hchecked, htarg, hlog, hfD, hfL⟩
  | cons t rest ih =>
    obtain ⟨h1, h2, h3, h4, h5⟩ := processTask_parallel now t
      (hl t (List.mem_cons_self t rest)) stD stL hchecked htarg hlog hfD hfL
    rw [List.foldl_cons, List.foldl_cons]
    exact ih (fun u hu => hl u (List.mem_cons_of_mem t hu)) _ _ h1 h2 h3 h4 h5

theorem processBase_skip (d : Bool) (now : Nat) (acc : RooAcc) (b : BaseDir)
    (hf : acc.failure = none) (hex : b.pathExists = false) :
    processBase d now acc b = { acc with bases := acc.bases ++ [b] } := by
  unfold processBase
  rw [if_neg (by simp [hf]), if_pos (by rw [hex]; rfl)]

theorem processBase_run (d : Bool) (now : Nat) (acc : RooAcc) (b : BaseDir)
    (hf : acc.failure = none) (hex : b.pathExists = true) (hrf : b.readFails = false) :
    processBase d now acc b =
      { bases := acc.bases ++ [{ b with tasks := (b.tasks.foldl (processTask d now)
          ⟨b.tasks, acc.tasksChecked, acc.checkpointsTargets, acc.deleteLog, none⟩).tasks }]
        tasksChecked := (b.tasks.foldl (processTask d now)
          ⟨b.tasks, acc.tasksChecked, acc.checkpointsTargets, acc.deleteLog, none⟩).tasksChecked
        checkpointsTargets := (b.tasks.foldl (processTask d now)
          ⟨b.tasks, acc.tasksChecked, acc.checkpointsTargets, acc.deleteLog, none⟩).checkpointsTargets
        deleteLog := (b.tasks.foldl (processTask d now)
          ⟨b.tasks, acc.tasksChecked, acc.checkpointsTargets, acc.deleteLog, none⟩).deleteLog
        failure := (b.tasks.foldl (processTask d now)
          ⟨b.tasks, acc.tasksChecked, acc.checkpointsTargets, acc.deleteLog, none⟩).failure } := by
  unfold processBase
  rw [if_neg (by simp [hf]), if_neg (by rw [hex]; simp), if_neg (by rw [hrf]; simp)]

theorem processBase_parallel (now : Nat) (b : BaseDir)
    (hb : b.pathExists = true → b.readFails = false ∧
      (∀ t ∈ b.tasks, t.isDir = true → t.metadataFails = false ∧
        (taskAge now t.modified < twoMonthsDuration ∨ t.hasCheckpoints = false ∨
          t.checkpointsIsDir = true)))
    (accD accL : RooAcc)
    (hchecked : accD.tasksChecked = accL.tasksChecked)
    (htarg : accD.checkpointsTargets = accL.checkpointsTargets)
    (hlog : accD.deleteLog = accL.deleteLog)
    (hfD : accD.failure = none) (hfL : accL.failure = none) :
    (processBase true now accD b).tasksChecked = (processBase false now accL b).tasksChecked
    ∧ (processBase true now accD b).checkpointsTargets
        = (processBase false now accL b).checkpointsTargets
    ∧ (processBase true now accD b).deleteLog = (processBase false now accL b).deleteLog
    ∧ (processBase true now accD b).failure = none
    ∧ (processBase false now accL b).failure = none := by
  by_cases hex : b.pathExists = true
  · obtain ⟨hrf, htasks⟩ := hb hex
    obtain ⟨h1, h2, h3, h4, h5⟩ := foldl_processTask_parallel now b.tasks htasks
      ⟨b.tasks, accD.tasksChecked, accD.checkpointsTargets, accD.deleteLog, none⟩
      ⟨b.tasks, accL.tasksChecked, accL.checkpointsTargets, accL.deleteLog, none⟩
      hchecked htarg hlog rfl rfl
    rw [processBase_run true now accD b hfD hex hrf, processBase_run false now accL b hfL hex hrf]
    exact ⟨h1, h2, h3, h4, h5⟩
  · have hex' : b.pathExists = false := by simpa using hex
    rw [processBase_skip true now accD b hfD hex', processBase_skip false now accL b hfL hex']
    exact ⟨hchecked, htarg, hlog, hfD, hfL⟩

theorem foldl_processBase_parallel (now : Nat) (bases : List BaseDir)
    (hbs : ∀ b ∈ bases, b.pathExists = true → b.readFails = false ∧
      (∀ t ∈ b.tasks, t.isDir = true → t.metadataFails = false ∧
        (taskAge now t.modified < twoMonthsDuration ∨ t.hasCheckpoints = false ∨
          t.checkpointsIsDir = true)))
    (accD accL : RooAcc)
    (hchecked : accD.tasksChecked = accL.tasksChecked)
    (htarg : accD.checkpointsTargets = accL.checkpointsTargets)
    (hlog : accD.deleteLog = accL.deleteLog)
    (hfD : accD.failure = none) (hfL : accL.failure = none) :
    (bases.foldl (processBase true now) accD).tasksChecked
        = (bases.foldl (processBase false now) accL).tasksChecked
    ∧ (bases.foldl (processBase true now) accD).checkpointsTargets
        = (bases.foldl (processBase false now) accL).checkpointsTargets
    ∧ (bases.foldl (processBase true now) accD).deleteLog
        = (bases.foldl (processBase false now) accL).deleteLog
    ∧ (bases.foldl (processBase true now) accD).failure = none
    ∧ (bases.foldl (processBase false now) accL).failure = none := by
  induction bases generalizing accD accL with
  | nil => exact ⟨hchecked, htarg, hlog, hfD, hfL⟩
  | cons b rest ih =>
    obtain ⟨h1, h2, h3, h4, h5⟩ := processBase_parallel now b
      (hbs b (List.mem_cons_self b rest)) accD accL hchecked htarg hlog hfD hfL
    rw [List.foldl_cons, List.foldl_cons]
    exact ih (fun u hu => hbs u (List.mem_cons_of_mem b hu)) _ _ h1 h2 h3 h4 h5

theorem rooNoFailures_unfold (now : Nat) (bases : List BaseDir)
    (hroo : rooNoFailures now bases = true) :
    ∀ b ∈ bases, b.pathExists = true → b.readFails = false ∧
      (∀ t ∈ b.tasks, t.isDir = true → t.metadataFails = false ∧
        (taskAge now t.modified < twoMonthsDuration ∨ t.hasCheckpoints = false ∨
          t.checkpointsIsDir = true)) := by
  simp only [rooNoFailures, List.all_eq_true, Bool.or_eq_true, Bool.and_eq_true,
    Bool.not_eq_true', decide_eq_true_eq] at hroo
  intro b hb hex
  rcases hroo b hb with h1 | ⟨h2, h3⟩
  · rw [hex] at h1
    exact absurd h1 (by simp)
  · refine ⟨h2, fun t ht hd => ?_⟩
    rcases h3 t ht with g1 | ⟨g2, g3⟩
    · rw [hd] at g1
      exact absurd g1 (by simp)
    · exact ⟨g2, or_assoc.mp g3⟩

/-- Under no pruner failures, the dry and the live checkpoint runs count the
same tasks, select the same checkpoint targets, and print the same paths. -/
theorem clean_roo_parallel (now : Nat) (bases : List BaseDir)
    (hroo : rooNoFailures now bases = true) :
    (clean_roo_checkpoints true now bases).tasksChecked
        = (clean_roo_checkpoints false now bases).tasksChecked
    ∧ (clean_roo_checkpoints true now bases).checkpointsTargets
        = (clean_roo_checkpoints false now bases).checkpointsTargets
    ∧ (clean_roo_checkpoints true now bases).deleteLog
        = (clean_roo_checkpoints false now bases).deleteLog
    ∧ (clean_roo_checkpoints true now bases).failure = none
    ∧ (clean_roo_checkpoints false now bases).failure = none := by
  have h := foldl_processBase_parallel now bases (rooNoFailures_unfold now bases hroo)
    ⟨[], 0, 0, [], none⟩ ⟨[], 0, 0, [], none⟩ rfl rfl rfl rfl rfl
  unfold clean_roo_checkpoints
  exact h

/-! ### Claims about the checkpoint pruner and `main` -/

/-- Claim C3 counterexample: a task whose age is exactly the two-month
threshold (`now = twoMonthsDuration`, modified at 0) IS selected as a
checkpoint target by the dry run — the claim predicts it is not eligible
and the target count stays 0, but the run reports 1. -/
theorem C3_counterexample :
    taskAge twoMonthsDuration oldTask.modified = twoMonthsDuration
    ∧ (clean_roo_checkpoints true twoMonthsDuration
        [{ pathExists := true, readFails := false, tasks := [oldTask] }]).checkpointsTargets
      = 1 := by
  constructor
  · rfl
  · rfl

/-- Claim C3 (amended): the boundary is strict on the keep side, not the
delete side: a task is kept exactly when its age is strictly below the
two-month threshold, so a task whose age exactly equals the threshold IS
eligible and is counted by the dry run. -/
theorem C3_boundary (now : Nat) (st : TaskState) (t : TaskEntry)
    (hf : st.failure = none) (hd : t.isDir = true) (hm : t.metadataFails = false)
    (hc : t.hasCheckpoints = true) :
    ((processTask true now st t).checkpointsTargets = st.checkpointsTargets + 1
      ↔ twoMonthsDuration ≤ taskAge now t.modified)
    ∧ (taskAge now t.modified = twoMonthsDuration →
        (processTask true now st t).checkpointsTargets = st.checkpointsTargets + 1) := by
  by_cases hage : taskAge now t.modified < twoMonthsDuration
  · rw [processTask_skip_young true now st t hf hd hm hage]
    constructor
    · constructor
      · intro h
        simp only [] at h
        omega
      · intro h
        omega
    · intro h
      omega
  · rw [processTask_dry_eligible now st t hf hd hm hage hc]
    constructor
    · constructor
      · intro h
        omega
      · intro h
        rfl
    · intro h
      rfl

/-- Witness for the amended C3: at exactly the threshold age the dry run
counts one target. -/
theorem C3_boundary_witness :
    taskAge twoMonthsDuration oldTask.modified = twoMonthsDuration
    ∧ (processTask true twoMonthsDuration ⟨[oldTask], 0, 0, [], none⟩ oldTask).checkpointsTargets
      = 0 + 1 :=
  ⟨rfl, (C3_boundary twoMonthsDuration ⟨[oldTask], 0, 0, [], none⟩ oldTask rfl rfl rfl rfl).2 rfl⟩

/-- Claim C7: an old-enough task directory without a checkpoints entry is
counted as inspected, is not counted as a deletion target, and nothing is
deleted or logged for it. -/
theorem C7_no_checkpoints (d : Bool) (now : Nat) (st : TaskState) (t : TaskEntry)
    (hf : st.failure = none) (hd : t.isDir = true) (hm : t.metadataFails = false)
    (hold : twoMonthsDuration ≤ taskAge now t.modified) (hnc : t.hasCheckpoints = false) :
    processTask d now st t = { st with tasksChecked := st.tasksChecked + 1 }
    ∧ (processTask d now st t).tasksChecked = st.tasksChecked + 1
    ∧ (processTask d now st t).checkpointsTargets = st.checkpointsTargets
    ∧ (processTask d now st t).tasks = st.tasks
    ∧ (processTask d now st t).deleteLog = st.deleteLog := by
  have h := processTask_no_checkpoints d now st t hf hd hm (by omega) hnc
  refine ⟨h, ?_, ?_, ?_, ?_⟩
  · rw [h]
  · rw [h]
  · rw [h]
  · rw [h]

/-- Witness for C7: a concrete old task with no checkpoints entry is
inspected but yields no target. -/
theorem C7_witness :
    twoMonthsDuration ≤ taskAge (twoMonthsDuration + 5) oldTaskNoCk.modified
    ∧ processTask false (twoMonthsDuration + 5) ⟨[oldTaskNoCk], 0, 0, [], none⟩ oldTaskNoCk
      = ⟨[oldTaskNoCk], 1, 0, [], none⟩ := by
  have h := C7_no_checkpoints false (twoMonthsDuration + 5) ⟨[oldTaskNoCk], 0, 0, [], none⟩
    oldTaskNoCk rfl rfl rfl (by decide) rfl
  exact ⟨by decide, h.1⟩

/-- Claim C8: a task directory whose modification time is in the future
gets age zero — `duration_since` signals the error case, `unwrap_or` maps
it to zero — so the task is kept and no error is raised. -/
theorem C8_future_mtime (d : Bool) (now : Nat) (st : TaskState) (t : TaskEntry)
    (hfut : now < t.modified) :
    duration_since now t.modified = none
    ∧ taskAge now t.modified = 0
    ∧ (st.failure = none → t.isDir = true → t.metadataFails = false →
        processTask d now st t = { st with tasksChecked := st.tasksChecked + 1 }) := by
  have h1 : duration_since now t.modified = none := by
    unfold duration_since
    rw [if_neg (by omega)]
  have h2 : taskAge now t.modified = 0 := by
    unfold taskAge
    rw [h1]
    rfl
  refine ⟨h1, h2, fun hf hd hm => ?_⟩
  apply processTask_skip_young d now st t hf hd hm
  rw [h2]
  decide

/-- Witness for C8: a concrete future-dated task is kept without error. -/
theorem C8_witness :
    (0 : Nat) < (futureTask 0).modified
    ∧ duration_since 0 (futureTask 0).modified = none
    ∧ taskAge 0 (futureTask 0).modified = 0
    ∧ processTask true 0 ⟨[futureTask 0], 0, 0, [], none⟩ (futureTask 0)
      = ⟨[futureTask 0], 1, 0, [], none⟩ := by
  have h := C8_future_mtime true 0 ⟨[futureTask 0], 0, 0, [], none⟩ (futureTask 0) (by decide)
  exact ⟨by decide, h.1, h.2.1, h.2.2 rfl rfl rfl⟩

/-- Claim C10: the eligibility test only checks that a path named
`checkpoints` exists, not that it is a directory.  For an old-enough task
whose checkpoints entry is a plain file, the dry run counts it as
eligible; the live run prints the path, attempts the recursive removal,
fails, and the failure freezes the remaining run, so the summary is not
printed. -/
theorem C10_file_checkpoints (now : Nat) (st : TaskState) (t : TaskEntry)
    (hf : st.failure = none) (hd : t.isDir = true) (hm : t.metadataFails = false)
    (hold : twoMonthsDuration ≤ taskAge now t.modified)
    (hc : t.hasCheckpoints = true) (hcd : t.checkpointsIsDir = false) :
    (processTask true now st t).checkpointsTargets = st.checkpointsTargets + 1
    ∧ (processTask true now st t).failure = none
    ∧ (processTask false now st t).failure
        = some ("Failed to delete checkpoints directory: " ++ t.name ++ "\\checkpoints")
    ∧ (processTask false now st t).deleteLog = st.deleteLog ++ [t.name ++ "\\checkpoints"]
    ∧ (processTask false now st t).tasks = st.tasks
    ∧ (processTask false now st t).checkpointsTargets = st.checkpointsTargets
    ∧ (∀ u, processTask false now (processTask false now st t) u = processTask false now st t)
    ∧ (clean_roo_checkpoints false now
        [{ pathExists := true, readFails := false, tasks := [t] }]).summaryPrinted = false := by
  have hage : ¬(taskAge now t.modified < twoMonthsDuration) := by omega
  have hdry := processTask_dry_eligible now st t hf hd hm hage hc
  have hlive := processTask_live_fail now st t hf hd hm hage hc hcd
  have hst0 := processTask_live_fail now (⟨[t], 0, 0, [], none⟩ : TaskState) t rfl hd hm hage hc hcd
  refine ⟨by rw [hdry], by rw [hdry]; exact hf, by rw [hlive], by rw [hlive], by rw [hlive],
    by rw [hlive], ?_, ?_⟩
  · intro u
    apply processTask_frozen
    rw [hlive]
    rfl
  · unfold clean_roo_checkpoints
    rw [List.foldl_cons, List.foldl_nil,
      processBase_run false now ⟨[], 0, 0, [], none⟩ _ rfl rfl rfl]
    simp only [List.foldl_cons, List.foldl_nil, hst0]
    rfl

/-- Witness for C10: a concrete old task whose checkpoints entry is a
file. -/
theorem C10_witness :
    (processTask true twoMonthsDuration
        ⟨[oldTaskFileCk], 0, 0, [], none⟩ oldTaskFileCk).checkpointsTargets = 0 + 1
    ∧ (processTask false twoMonthsDuration
        ⟨[oldTaskFileCk], 0, 0, [], none⟩ oldTaskFileCk).failure
      = some ("Failed to delete checkpoints directory: " ++ "task-file" ++ "\\checkpoints") := by
  have h := C10_file_checkpoints twoMonthsDuration ⟨[oldTaskFileCk], 0, 0, [], none⟩
    oldTaskFileCk rfl rfl rfl (by decide) rfl rfl
  exact ⟨h.1, h.2.2.1⟩

/-- Claim C2 counterexample: when `--clean-roo-checkpoints` is passed and
the cache path does not exist, the process exits successfully (status 0)
instead of failing — the path check is skipped entirely
(main.rs line 49). -/
theorem C2_counterexample :
    mainRun false false true false "C:\\PkgCache\\VC17LTCG" [] false 0 [] = .ok () := by
  rfl

/-- Claim C2 (amended): without `--clean-roo-checkpoints`, a missing or
non-directory cache path terminates the process with a non-zero status and
a message naming the failing path; with `--clean-roo-checkpoints`, the
invalid path is skipped silently and the exit status is decided by the
checkpoint phase alone. -/
theorem C2_invalid_path (pathExists pathIsDir dryRun : Bool) (path : String) (fs : CacheFS)
    (rf : Bool) (now : Nat) (bases : List BaseDir)
    (h : ¬(pathExists = true ∧ pathIsDir = true)) :
    mainRun pathExists pathIsDir false dryRun path fs rf now bases
      = .error (if pathExists then "Path is not a directory: " ++ path
          else "Path does not exist: " ++ path) := by
  unfold mainRun
  have hcond : (pathExists && pathIsDir) = false := by
    cases pathExists with
    | false => rfl
    | true =>
      cases pathIsDir with
      | false => rfl
      | true => exact absurd ⟨rfl, rfl⟩ h
  rw [if_neg (by simp [hcond]), if_pos (by rfl)]
  cases pathExists with
  | false => rfl
  | true =>
    rw [if_neg (by simp), if_pos (by rfl)]

/-- Witness for the amended C2: a concrete missing path without the roo
flag exits with the error naming the path. -/
theorem C2_invalid_path_witness :
    mainRun false true false false "C:\\PkgCache\\VC17LTCG" [] false 0 []
      = .error ("Path does not exist: " ++ "C:\\PkgCache\\VC17LTCG") := by
  have h := C2_invalid_path false true false "C:\\PkgCache\\VC17LTCG" [] false 0 []
    (by intro hcon; exact absurd hcon.1 (by simp))
  rw [h]
  rfl

/-! ### Claims about the package cache cleaner -/

/-- Claim C6: the summary counts packages with at least one surviving
version candidate (zero-version packages are dropped), total kept is the
sum of `min(V, 2)` and total deleted (or would-be-deleted under dry run)
is the sum of `max(V - 2, 0)` over those packages. -/
theorem C6_summary (fs : CacheFS) (d : Bool)
    (hnodup : (pkgNames fs).Nodup) (hnf : noFailures fs = true) :
    (clean_package_cache fs false d).packagesProcessed = (fs.filter goodPkg).length
    ∧ (clean_package_cache fs false d).totalKept
        = ((fs.filter goodPkg).map (fun p => min (versionsOf p).length 2)).sum
    ∧ (clean_package_cache fs false d).totalDeleted
        = ((fs.filter goodPkg).map (fun p => (versionsOf p).length - 2)).sum := by
  have hc := collectPackages_ok fs hnodup (noCollectFails_of_noFailures fs hnf)
  have hkeep : (((fs.filter goodPkg).map (fun p => (p.name, versionsOf p))).map
      (fun q => (toKeep q.2).length)).sum
      = ((fs.filter goodPkg).map (fun p => min (versionsOf p).length 2)).sum := by
    rw [List.map_map]
    refine congrArg List.sum (List.map_congr_left ?_)
    intro p hp
    exact toKeep_length (versionsOf p)
  have hdel : (((fs.filter goodPkg).map (fun p => (p.name, versionsOf p))).map
      (fun q => (toDelete q.2).length)).sum
      = ((fs.filter goodPkg).map (fun p => (versionsOf p).length - 2)).sum := by
    rw [List.map_map]
    refine congrArg List.sum (List.map_congr_left ?_)
    intro p hp
    exact toDelete_length (versionsOf p)
  cases d with
  | true =>
    rw [clean_package_cache_dry fs _ hc]
    exact ⟨by simp, hkeep, hdel⟩
  | false =>
    rw [clean_package_cache_live_nf fs _ hc (noRemoveFails_of_noFailures fs hnf)]
    exact ⟨by simp, hkeep, hdel⟩

/-- Witness for C6 on the specification's worked example: 2 packages,
3 versions kept, 1 deleted. -/
theorem C6_witness :
    (pkgNames exampleCache).Nodup
    ∧ noFailures exampleCache = true
    ∧ (clean_package_cache exampleCache false false).packagesProcessed
        = (exampleCache.filter goodPkg).length
    ∧ (clean_package_cache exampleCache false false).totalKept
        = ((exampleCache.filter goodPkg).map (fun p => min (versionsOf p).length 2)).sum
    ∧ (clean_package_cache exampleCache false false).totalDeleted
        = ((exampleCache.filter goodPkg).map (fun p => (versionsOf p).length - 2)).sum := by
  have h := C6_summary exampleCache false (by decide) (by decide)
  exact ⟨by decide, by decide, h.1, h.2.1, h.2.2⟩

/-- Claim C1: a live run leaves, in every package directory, exactly
`min(V, 2)` version directories and removes `max(V - 2, 0)`; the survivors
are the keep-set — the two most-recently-modified versions — and the
keep-set and delete-set partition the versions with every deleted version
no newer than every kept one. -/
theorem C1_retention (fs : CacheFS)
    (hnodup : (pkgNames fs).Nodup) (hvnd : ∀ p ∈ fs, (verNames p).Nodup)
    (hnf : noFailures fs = true) :
    (clean_package_cache fs false false).failure = none
    ∧ (clean_package_cache fs false false).fs.length = fs.length
    ∧ ∀ (i : Nat) (p : PEntry), fs[i]? = some p → goodDir p = true →
        ∃ p2, (clean_package_cache fs false false).fs[i]? = some p2
          ∧ (versionsOf p2).length = min (versionsOf p).length 2
          ∧ (versionsOf p).length - (versionsOf p2).length = (versionsOf p).length - 2
          ∧ (versionsOf p2).Perm (toKeep (versionsOf p))
          ∧ (toKeep (versionsOf p) ++ toDelete (versionsOf p)).Perm (versionsOf p)
          ∧ ∀ k ∈ toKeep (versionsOf p), ∀ dv ∈ toDelete (versionsOf p),
              dv.modified ≤ k.modified := by
  have hc := collectPackages_ok fs hnodup (noCollectFails_of_noFailures fs hnf)
  have hnr := noRemoveFails_of_noFailures fs hnf
  rw [clean_package_cache_live_nf fs _ hc hnr]
  refine ⟨rfl, by simp, ?_⟩
  intro i p hip hg
  have hp : p ∈ fs := by
    have := List.getElem?_eq_some.mp hip
    obtain ⟨hlt, heq⟩ := this
    rw [← heq]
    exact List.getElem_mem hlt
  refine ⟨scrub (deleteSet ((fs.filter goodPkg).map (fun q => (q.name, versionsOf q)))) p,
    ?_, ?_, ?_, ?_, ?_, ?_⟩
  · show (fs.map (scrub (deleteSet ((fs.filter goodPkg).map
        (fun q => (q.name, versionsOf q))))))[i]? = _
    rw [List.getElem?_map, hip]
    rfl
  · exact versionsOf_scrub_length fs p hp hg hnodup (hvnd p hp)
  · rw [versionsOf_scrub_length fs p hp hg hnodup (hvnd p hp)]
    omega
  · exact versionsOf_scrub_perm fs p hp hg hnodup (hvnd p hp)
  · exact keep_delete_perm (versionsOf p)
  · exact toDelete_le_toKeep (versionsOf p)

/-- Witness for C1 on the worked example cache. -/
theorem C1_witness :
    (pkgNames exampleCache).Nodup
    ∧ (∀ p ∈ exampleCache, (verNames p).Nodup)
    ∧ noFailures exampleCache = true
    ∧ (clean_package_cache exampleCache false false).failure = none
    ∧ (clean_package_cache exampleCache false false).fs.length = exampleCache.length := by
  have h := C1_retention exampleCache (by decide) (by decide) (by decide)
  exact ⟨by decide, by decide, by decide, h.1, h.2.1⟩

/-- Claim C4: dry runs of both cleaners never change the tree, whatever
the input; and under no failures the dry run reports exactly the candidate
set a live run deletes — the package delete logs agree, the live run
removes exactly the logged version directories, and the pruner's dry and
live target lists and counts agree. -/
theorem C4_dry_run (fs : CacheFS) (rf : Bool) (now : Nat) (bases : List BaseDir)
    (hnf : noFailures fs = true)
    (hroo : rooNoFailures now bases = true) :
    (clean_package_cache fs rf true).fs = fs
    ∧ (clean_roo_checkpoints true now bases).bases = bases
    ∧ (clean_package_cache fs false true).deleteLog
        = (clean_package_cache fs false false).deleteLog
    ∧ (clean_package_cache fs false false).fs
        = fs.map (scrub ((clean_package_cache fs false true).deleteLog))
    ∧ (clean_roo_checkpoints true now bases).deleteLog
        = (clean_roo_checkpoints false now bases).deleteLog
    ∧ (clean_roo_checkpoints true now bases).checkpointsTargets
        = (clean_roo_checkpoints false now bases).checkpointsTargets := by
  obtain ⟨pkgs, hc⟩ := collectPackages_exists fs (noCollectFails_of_noFailures fs hnf)
  have hnr := noRemoveFails_of_noFailures fs hnf
  have hdry := clean_package_cache_dry fs pkgs hc
  have hlive := clean_package_cache_live_nf fs pkgs hc hnr
  have hpar := clean_roo_parallel now bases hroo
  exact ⟨clean_package_cache_dry_fs fs rf, clean_roo_dry_bases now bases,
    by rw [hdry, hlive], by rw [hdry, hlive], hpar.2.2.1, hpar.2.1⟩

/-- Witness for C4 on concrete inputs. -/
theorem C4_witness :
    noFailures exampleCache = true
    ∧ rooNoFailures twoMonthsDuration
        [{ pathExists := true, readFails := false, tasks := [oldTask, oldTaskNoCk] }] = true
    ∧ (clean_package_cache exampleCache false true).fs = exampleCache
    ∧ (clean_package_cache exampleCache false true).deleteLog
        = (clean_package_cache exampleCache false false).deleteLog
    ∧ (clean_roo_checkpoints true twoMonthsDuration
        [{ pathExists := true, readFails := false, tasks := [oldTask, oldTaskNoCk] }]).deleteLog
      = (clean_roo_checkpoints false twoMonthsDuration
        [{ pathExists := true, readFails := false, tasks := [oldTask, oldTaskNoCk] }]).deleteLog := by
  have h := C4_dry_run exampleCache false twoMonthsDuration
    [{ pathExists := true, readFails := false, tasks := [oldTask, oldTaskNoCk] }]
    (by decide) (by decide)
  exact ⟨by decide, by decide, h.1, h.2.2.1, h.2.2.2.2.1⟩

/-- Claim C5: the package cleaner is idempotent: a second live run on the
tree produced by a successful live run deletes nothing and leaves the tree
unchanged. -/
theorem C5_idempotent (fs : CacheFS)
    (hnodup : (pkgNames fs).Nodup) (hvnd : ∀ p ∈ fs, (verNames p).Nodup)
    (hnf : noFailures fs = true) :
    (clean_package_cache ((clean_package_cache fs false false).fs) false false).totalDeleted = 0
    ∧ (clean_package_cache ((clean_package_cache fs false false).fs) false false).deleteLog = []
    ∧ (clean_package_cache ((clean_package_cache fs false false).fs) false false).fs
        = (clean_package_cache fs false false).fs := by
  have hc := collectPackages_ok fs hnodup (noCollectFails_of_noFailures fs hnf)
  have hnr := noRemoveFails_of_noFailures fs hnf
  have hlive := clean_package_cache_live_nf fs _ hc hnr
  have hfs1 : (clean_package_cache fs false false).fs
      = fs.map (scrub (deleteSet ((fs.filter goodPkg).map (fun q => (q.name, versionsOf q))))) := by
    rw [hlive]
  have hnf1 : noFailures (fs.map (scrub (deleteSet ((fs.filter goodPkg).map
      (fun q => (q.name, versionsOf q)))))) = true := noFailures_scrub fs _ hnf
  have hnodup1 : (pkgNames (fs.map (scrub (deleteSet ((fs.filter goodPkg).map
      (fun q => (q.name, versionsOf q))))))).Nodup := by
    rw [pkgNames_map_scrub]
    exact hnodup
  have hc1 := collectPackages_ok _ hnodup1 (noCollectFails_of_noFailures _ hnf1)
  have hnr1 := noRemoveFails_of_noFailures _ hnf1
  have hlive1 := clean_package_cache_live_nf _ _ hc1 hnr1
  have hshort := toDelete_after_live fs hnodup hvnd
  have hDS := deleteSet_after_live fs hnodup hvnd
  rw [hfs1, hlive1]
  refine ⟨?_, hDS, ?_⟩
  · apply List.sum_eq_zero
    intro x hx
    obtain ⟨q, hq, rfl⟩ := List.mem_map.mp hx
    rw [hshort q hq]
    rfl
  · rw [hDS, map_scrub_nil]

/-- Witness for C5 on the worked example cache. -/
theorem C5_witness :
    (pkgNames exampleCache).Nodup
    ∧ (∀ p ∈ exampleCache, (verNames p).Nodup)
    ∧ noFailures exampleCache = true
    ∧ (clean_package_cache ((clean_package_cache exampleCache false false).fs)
        false false).totalDeleted = 0
    ∧ (clean_package_cache ((clean_package_cache exampleCache false false).fs)
        false false).fs = (clean_package_cache exampleCache false false).fs := by
  have h := C5_idempotent exampleCache (by decide) (by decide) (by decide)
  exact ⟨by decide, by decide, by decide, h.1, h.2.2⟩

/-! ### Failure propagation in the first pass -/

theorem except_map_error {ε α β : Type} (f : α → β) (e : ε) :
    (Except.error e : Except ε α).map f = .error e := rfl

theorem except_bind_error {ε α β : Type} (e : ε) (f : α → Except ε β) :
    (Except.error e : Except ε α) >>= f = .error e := rfl

theorem collectVersions_go_error (pkgName : String) (l : List VEntry) :
    ∀ acc, (∃ v ∈ l, vGood v = true ∧ v.metadataFails = true) →
      ∃ e, l.foldlM (fun acc v => (readVersion pkgName v).map (fun o => acc ++ o.toList)) acc
        = .error e := by
  induction l with
  | nil =>
    intro acc hbad
    simp at hbad
  | cons v t ih =>
    intro acc hbad
    simp only [List.foldlM_cons]
    by_cases hbm : vGood v = true ∧ v.metadataFails = true
    · obtain ⟨hvg, hvm⟩ := hbm
      have hd : v.isDir = true := by
        simp only [vGood, Bool.and_eq_true] at hvg
        exact hvg.1
      have hn : ¬(v.name = "") := by
        simp only [vGood, Bool.and_eq_true, Bool.not_eq_true', beq_eq_false_iff_ne] at hvg
        exact hvg.2
      have hrv : readVersion pkgName v
          = .error ("Failed to get metadata for: " ++ pkgName ++ "\\" ++ v.name) := by
        unfold readVersion
        rw [if_neg (by simp [hd]), if_neg hn, if_pos hvm]
      rw [hrv, except_map_error, except_bind_error]
      exact ⟨_, rfl⟩
    · obtain ⟨w, hw, hwg, hwm⟩ := hbad
      have hwt : w ∈ t := by
        rcases List.mem_cons.mp hw with heq | h
        · subst heq
          exact absurd ⟨hwg, hwm⟩ hbm
        · exact h
      have hro : ∃ o, readVersion pkgName v = .ok o := by
        by_cases hd : v.isDir = true
        · by_cases hn : v.name = ""
          · refine ⟨none, ?_⟩
            unfold readVersion
            rw [if_neg (by simp [hd]), if_pos hn]
          · have hvm : v.metadataFails = false := by
              rcases Bool.eq_false_or_eq_true v.metadataFails with h | h
              · exact absurd ⟨by simp [vGood, hd, hn], h⟩ hbm
              · exact h
            refine ⟨some { name := v.name, modified := v.modified }, ?_⟩
            unfold readVersion
            rw [if_neg (by simp [hd]), if_neg hn, if_neg (by simp [hvm])]
        · refine ⟨none, ?_⟩
          unfold readVersion
          rw [if_pos (by simp [by simpa using hd])]
      obtain ⟨o, hro⟩ := hro
      rw [hro, except_map_ok, except_bind_ok]
      exact ih _ ⟨w, hwt, hwg, hwm⟩

theorem collectVersions_error (p : PEntry)
    (hbad : p.readFails = true
      ∨ ∃ v ∈ p.entries, vGood v = true ∧ v.metadataFails = true) :
    ∃ e, collectVersions p = .error e := by
  unfold collectVersions
  by_cases hrf : p.readFails = true
  · rw [if_pos hrf]
    exact ⟨_, rfl⟩
  · rw [if_neg hrf]
    rcases hbad with h | h
    · exact absurd h hrf
    · exact collectVersions_go_error p.name p.entries [] h

theorem collectPackages_error_go (fs : CacheFS) :
    ∀ m : PkgMap, (∃ p ∈ fs, goodDir p = true ∧
        (p.readFails = true ∨ ∃ v ∈ p.entries, vGood v = true ∧ v.metadataFails = true)) →
      ∃ e, fs.foldlM (fun m p =>
        if !p.isDir then pure m
        else if p.name = "" then pure m
        else (collectVersions p).map
          (fun vs => if vs.isEmpty then m else insertPkg m p.name vs)) m = .error e := by
  induction fs with
  | nil =>
    intro m hbad
    simp at hbad
  | cons p t ih =>
    intro m hbad
    simp only [List.foldlM_cons]
    by_cases hb : goodDir p = true ∧ (p.readFails = true
        ∨ ∃ v ∈ p.entries, vGood v = true ∧ v.metadataFails = true)
    · obtain ⟨hg, hfail⟩ := hb
      have hd : p.isDir = true := by
        simp only [goodDir, Bool.and_eq_true] at hg
        exact hg.1
      have hn : ¬(p.name = "") := by
        simp only [goodDir, Bool.and_eq_true, Bool.not_eq_true', beq_eq_false_iff_ne] at hg
        exact hg.2
      obtain ⟨e, he⟩ := collectVersions_error p hfail
      have hstep : (if !p.isDir then (pure m : Except String PkgMap)
          else if p.name = "" then pure m
          else (collectVersions p).map
            (fun vs => if vs.isEmpty then m else insertPkg m p.name vs)) = .error e := by
        rw [if_neg (by simp [hd]), if_neg hn, he, except_map_error]
      rw [hstep, except_bind_error]
      exact ⟨e, rfl⟩
    · obtain ⟨w, hw, hwg, hwf⟩ := hbad
      have hwt : w ∈ t := by
        rcases List.mem_cons.mp hw with heq | h
        · subst heq
          exact absurd ⟨hwg, hwf⟩ hb
        · exact h
      have hok : ∃ r, (if !p.isDir then (pure m : Except String PkgMap)
          else if p.name = "" then pure m
          else (collectVersions p).map
            (fun vs => if vs.isEmpty then m else insertPkg m p.name vs)) = Except.ok r := by
        by_cases hd : p.isDir = true
        · by_cases hn : p.name = ""
          · refine ⟨m, ?_⟩
            rw [if_neg (by simp [hd]), if_pos hn]
            rfl
          · have hg : goodDir p = true := by simp [goodDir, hd, hn]
            have hnof : ¬(p.readFails = true
                ∨ ∃ v ∈ p.entries, vGood v = true ∧ v.metadataFails = true) :=
              fun hf => hb ⟨hg, hf⟩
            push_neg at hnof
            have hcv := collectVersions_ok p (by simpa using hnof.1)
              (fun v hv hvg => by simpa using hnof.2 v hv hvg)
            refine ⟨if (versionsOf p).isEmpty then m else insertPkg m p.name (versionsOf p), ?_⟩
            rw [if_neg (by simp [hd]), if_neg hn, hcv, except_map_ok]
        · refine ⟨m, ?_⟩
          rw [if_pos (by simp [by simpa using hd])]
          rfl
      obtain ⟨r, hr⟩ := hok
      rw [hr, except_bind_ok]
      exact ih r ⟨w, hwt, hwg, hwf⟩

theorem collectPackages_error (fs : CacheFS)
    (hbad : ∃ p ∈ fs, goodDir p = true ∧
      (p.readFails = true ∨ ∃ v ∈ p.entries, vGood v = true ∧ v.metadataFails = true)) :
    ∃ e, collectPackages false fs = .error e := by
  unfold collectPackages
  rw [if_neg (by simp)]
  exact collectPackages_error_go fs [] hbad

/-! ### Failure propagation in the second pass -/

theorem foldl_deleteOne_live_wk (pkg : String) (l : List PackageVersion) :
    ∀ st : Pass2State, st.failure = none →
      (l.map (fun u => u.name)).Nodup →
      (∀ u ∈ l, removeFailsAt st.fs pkg u.name = false) →
      l.foldl (deleteOne false pkg) st =
        ⟨st.fs.map (scrub (pairsOf pkg l)), st.totalKept, st.totalDeleted + l.length,
          st.deleteLog ++ pairsOf pkg l, none⟩ := by
  induction l with
  | nil =>
    intro st h hnd hok
    rw [List.foldl_nil]
    cases st
    simp_all [pairsOf, map_scrub_nil]
  | cons v t ih =>
    intro st h hnd hok
    rw [List.foldl_cons]
    have hrm : removeVersionDir st.fs pkg v.name = .ok (st.fs.map (scrub [(pkg, v.name)])) :=
      removeVersionDir_ok st.fs pkg v.name (hok v (List.mem_cons_self v t))
    have hstep : deleteOne false pkg st v =
        ⟨st.fs.map (scrub [(pkg, v.name)]), st.totalKept, st.totalDeleted + 1,
          st.deleteLog ++ [(pkg, v.name)], st.failure⟩ := by
      unfold deleteOne
      rw [if_neg (by simp [h]), if_neg (by simp)]
      simp only [hrm]
    have hndc : (∀ x ∈ t, ¬x.name = v.name) ∧ (t.map (fun u => u.name)).Nodup := by
      simpa using hnd
    have hokt : ∀ u ∈ t,
        removeFailsAt (st.fs.map (scrub [(pkg, v.name)])) pkg u.name = false := by
      intro u hu
      rw [removeFailsAt_scrub st.fs [(pkg, v.name)] pkg u.name ?_]
      · exact hok u (List.mem_cons_of_mem v hu)
      · simp only [List.mem_singleton, Prod.mk.injEq]
        rintro ⟨-, hequ⟩
        exact hndc.1 u hu hequ
    rw [hstep, h, ih _ rfl hndc.2 hokt, map_scrub_comp]
    simp [pairsOf, List.append_assoc, List.length_cons]
    omega

theorem foldl_deleteOne_live_fail (pkg : String) (l1 : List PackageVersion)
    (v : PackageVersion) (l2 : List PackageVersion) :
    ∀ st : Pass2State, st.failure = none →
      (((l1 ++ v :: l2).map (fun u => u.name)).Nodup) →
      (∀ u ∈ l1, removeFailsAt st.fs pkg u.name = false) →
      removeFailsAt st.fs pkg v.name = true →
      (l1 ++ v :: l2).foldl (deleteOne false pkg) st =
        ⟨st.fs.map (scrub (pairsOf pkg l1)), st.totalKept, st.totalDeleted + l1.length,
          st.deleteLog ++ pairsOf pkg l1 ++ [(pkg, v.name)],
          some ("Failed to delete directory: " ++ pkg ++ "\\" ++ v.name)⟩ := by
  induction l1 with
  | nil =>
    intro st h hnd hok hbad
    simp only [List.nil_append, List.foldl_cons]
    have hrm : removeVersionDir st.fs pkg v.name
        = .error ("Failed to delete directory: " ++ pkg ++ "\\" ++ v.name) := by
      unfold removeVersionDir
      rw [if_pos hbad]
    have hstep : deleteOne false pkg st v =
        ⟨st.fs, st.totalKept, st.totalDeleted, st.deleteLog ++ [(pkg, v.name)],
          some ("Failed to delete directory: " ++ pkg ++ "\\" ++ v.name)⟩ := by
      unfold deleteOne
      rw [if_neg (by simp [h]), if_neg (by simp)]
      simp only [hrm]
    rw [hstep, foldl_deleteOne_frozen false pkg l2 _ (by rfl)]
    simp [pairsOf, map_scrub_nil]
  | cons u t ih =>
    intro st h hnd hok hbad
    rw [List.cons_append, List.foldl_cons]
    have hrm : removeVersionDir st.fs pkg u.name = .ok (st.fs.map (scrub [(pkg, u.name)])) :=
      removeVersionDir_ok st.fs pkg u.name (hok u (List.mem_cons_self u t))
    have hstep : deleteOne false pkg st u =
        ⟨st.fs.map (scrub [(pkg, u.name)]), st.totalKept, st.totalDeleted + 1,
          st.deleteLog ++ [(pkg, u.name)], st.failure⟩ := by
      unfold deleteOne
      rw [if_neg (by simp [h]), if_neg (by simp)]
      simp only [hrm]
    have hndc : ((∀ x ∈ t, ¬x.name = u.name) ∧ ¬u.name = v.name
          ∧ ∀ x ∈ l2, ¬x.name = u.name)
        ∧ (t.map (fun w => w.name) ++ v.name :: l2.map (fun w => w.name)).Nodup := by
      simpa using hnd
    have hokt : ∀ w ∈ t,
        removeFailsAt (st.fs.map (scrub [(pkg, u.name)])) pkg w.name = false := by
      intro w hw
      rw [removeFailsAt_scrub st.fs [(pkg, u.name)] pkg w.name ?_]
      · exact hok w (List.mem_cons_of_mem u hw)
      · simp only [List.mem_singleton, Prod.mk.injEq]
        rintro ⟨-, heqw⟩
        exact hndc.1.1 w hw heqw
    have hbad2 : removeFailsAt (st.fs.map (scrub [(pkg, u.name)])) pkg v.name = true := by
      rw [removeFailsAt_scrub st.fs [(pkg, u.name)] pkg v.name ?_]
      · exact hbad
      · simp only [List.mem_singleton, Prod.mk.injEq]
        rintro ⟨-, heqv⟩
        exact hndc.1.2.1 heqv.symm
    rw [hstep, h, ih _ rfl (by simpa using hndc.2) hokt hbad2, map_scrub_comp]
    simp [pairsOf, List.append_assoc, List.length_cons]
    omega

theorem processPackage_live_wk (st : Pass2State) (q : String × List PackageVersion)
    (h : st.failure = none)
    (hnd : ((toDelete q.2).map (fun u => u.name)).Nodup)
    (hok : ∀ u ∈ toDelete q.2, removeFailsAt st.fs q.1 u.name = false) :
    processPackage false st q =
      ⟨st.fs.map (scrub (pairsOf q.1 (toDelete q.2))), st.totalKept + (toKeep q.2).length,
        st.totalDeleted + (toDelete q.2).length,
        st.deleteLog ++ pairsOf q.1 (toDelete q.2), none⟩ := by
  unfold processPackage
  rw [if_neg (by simp [h])]
  exact foldl_deleteOne_live_wk q.1 (toDelete q.2) _ (by simp [h]) hnd hok

theorem pairsOf_nodup (pkg : String) (l : List PackageVersion)
    (h : (l.map (fun u => u.name)).Nodup) : (pairsOf pkg l).Nodup := by
  have heq : pairsOf pkg l = (l.map (fun u => u.name)).map (fun n => (pkg, n)) := by
    simp [pairsOf, List.map_map]
  rw [heq]
  exact h.map (fun a b hab => congrArg Prod.snd hab)

theorem mem_deleteSet_key (pkgs : PkgMap) (y : String × String) (hy : y ∈ deleteSet pkgs) :
    y.1 ∈ keysOf pkgs := by
  obtain ⟨q, hq, hmem⟩ := List.mem_flatMap.mp hy
  obtain ⟨w, hw, rfl⟩ := List.mem_map.mp hmem
  exact List.mem_map.mpr ⟨q, hq, rfl⟩

theorem deleteSet_nodup_of (pkgs : PkgMap)
    (hk : (keysOf pkgs).Nodup)
    (hv : ∀ q ∈ pkgs, ((toDelete q.2).map (fun u => u.name)).Nodup) :
    (deleteSet pkgs).Nodup := by
  induction pkgs with
  | nil => simp [deleteSet]
  | cons q rest ih =>
    rw [deleteSet_cons]
    have hkc : (∀ x : List PackageVersion, (q.1, x) ∉ rest)
        ∧ (rest.map (fun r => r.1)).Nodup := by
      simpa [keysOf] using hk
    have hkq : q.1 ∉ keysOf rest := by
      intro hmem
      obtain ⟨r, hr, hr1⟩ := List.mem_map.mp hmem
      have hre : (q.1, r.2) = r := by
        rw [← hr1]
      exact hkc.1 r.2 (hre ▸ hr)
    apply List.Nodup.append
    · exact pairsOf_nodup q.1 (toDelete q.2) (hv q (List.mem_cons_self q rest))
    · exact ih hkc.2 (fun r hr => hv r (List.mem_cons_of_mem q hr))
    · intro y hy1 hy2
      have h1 : y.1 = q.1 := by
        obtain ⟨u, hu, rfl⟩ := List.mem_map.mp hy1
        rfl
      exact hkq (h1 ▸ mem_deleteSet_key rest y hy2)

theorem toDelete_names_nodup (vs : List PackageVersion)
    (h : (vs.map (fun u => u.name)).Nodup) :
    ((toDelete vs).map (fun u => u.name)).Nodup := by
  have hperm : ((sortVersions vs).map (fun u => u.name)).Perm (vs.map (fun u => u.name)) :=
    (sortVersions_perm vs).map _
  have hs : ((sortVersions vs).map (fun u => u.name)).Nodup := hperm.symm.nodup h
  exact hs.sublist ((List.drop_sublist 2 (sortVersions vs)).map _)

theorem filter_goodPkg_sublist (l : CacheFS) :
    (l.filter goodPkg).Sublist (l.filter goodDir) := by
  induction l with
  | nil => simp
  | cons p t ih =>
    by_cases h : goodPkg p = true
    · have hg : goodDir p = true := by
        simp only [goodPkg, Bool.and_eq_true] at h
        exact h.1
      simp only [List.filter_cons, h, hg, if_pos]
      exact ih.cons₂ p
    · have h' : goodPkg p = false := by simpa using h
      by_cases hg : goodDir p = true
      · simp only [List.filter_cons, h', hg, if_pos, Bool.false_eq_true, if_false]
        exact ih.cons p
      · have hg' : goodDir p = false := by simpa using hg
        simp only [List.filter_cons, h', hg', Bool.false_eq_true, if_false]
        exact ih

theorem collected_keys_nodup (fs : CacheFS) (hnodup : (pkgNames fs).Nodup) :
    (keysOf ((fs.filter goodPkg).map (fun p => (p.name, versionsOf p)))).Nodup := by
  have heq : keysOf ((fs.filter goodPkg).map (fun p => (p.name, versionsOf p)))
      = (fs.filter goodPkg).map (fun p => p.name) := by
    simp [keysOf, List.map_map]
  rw [heq]
  exact hnodup.sublist ((filter_goodPkg_sublist fs).map _)

theorem deleteSet_append (A B : PkgMap) : deleteSet (A ++ B) = deleteSet A ++ deleteSet B := by
  simp [deleteSet]

theorem foldl_processPackage_live_fail (q : String × List PackageVersion)
    (P2 : PkgMap) (l1 : List PackageVersion) (v : PackageVersion) (l2 : List PackageVersion)
    (hq : toDelete q.2 = l1 ++ v :: l2) :
    ∀ (P1 : PkgMap) (st : Pass2State), st.failure = none →
      (deleteSet (P1 ++ q :: P2)).Nodup →
      (∀ r ∈ P1 ++ q :: P2, ((toDelete r.2).map (fun u => u.name)).Nodup) →
      (∀ y ∈ deleteSet P1 ++ pairsOf q.1 l1, removeFailsAt st.fs y.1 y.2 = false) →
      removeFailsAt st.fs q.1 v.name = true →
      (P1 ++ q :: P2).foldl (processPackage false) st =
        ⟨st.fs.map (scrub (deleteSet P1 ++ pairsOf q.1 l1)),
          st.totalKept + ((P1.map (fun r => (toKeep r.2).length)).sum + (toKeep q.2).length),
          st.totalDeleted + ((P1.map (fun r => (toDelete r.2).length)).sum + l1.length),
          st.deleteLog ++ (deleteSet P1 ++ pairsOf q.1 l1 ++ [(q.1, v.name)]),
          some ("Failed to delete directory: " ++ q.1 ++ "\\" ++ v.name)⟩ := by
  intro P1
  induction P1 with
  | nil =>
    intro st h hnd hnames hok hbad
    simp only [List.nil_append, List.foldl_cons]
    have hnames_q : ((l1 ++ v :: l2).map (fun u => u.name)).Nodup := by
      rw [← hq]
      exact hnames q (List.mem_cons_self q P2)
    have hok1 : ∀ u ∈ l1, removeFailsAt st.fs q.1 u.name = false := by
      intro u hu
      apply hok (q.1, u.name)
      apply List.mem_append_right
      exact List.mem_map.mpr ⟨u, hu, rfl⟩
    have hstep : processPackage false st q =
        ⟨st.fs.map (scrub (pairsOf q.1 l1)), st.totalKept + (toKeep q.2).length,
          st.totalDeleted + l1.length,
          st.deleteLog ++ pairsOf q.1 l1 ++ [(q.1, v.name)],
          some ("Failed to delete directory: " ++ q.1 ++ "\\" ++ v.name)⟩ := by
      unfold processPackage
      rw [if_neg (by simp [h]), hq]
      exact foldl_deleteOne_live_fail q.1 l1 v l2 _ (by simp [h]) hnames_q hok1 hbad
    rw [hstep, foldl_processPackage_frozen false P2 _ (by rfl)]
    simp [deleteSet, List.append_assoc]
  | cons r P1t ih =>
    intro st h hnd hnames hok hbad
    rw [List.cons_append, List.foldl_cons]
    have hnames_r := hnames r (List.mem_cons_self r (P1t ++ q :: P2))
    have hok_r : ∀ u ∈ toDelete r.2, removeFailsAt st.fs r.1 u.name = false := by
      intro u hu
      apply hok (r.1, u.name)
      apply List.mem_append_left
      rw [deleteSet_cons]
      exact List.mem_append_left _ (List.mem_map.mpr ⟨u, hu, rfl⟩)
    have hstep := processPackage_live_wk st r h hnames_r hok_r
    have hndR : deleteSet ((r :: P1t) ++ q :: P2)
        = pairsOf r.1 (toDelete r.2) ++ deleteSet (P1t ++ q :: P2) := by
      rw [List.cons_append, deleteSet_cons]
    rw [hndR] at hnd
    obtain ⟨hnd1, hnd2, hdisj⟩ := List.nodup_append.mp hnd
    have hsubrest : ∀ y, y ∈ deleteSet P1t ++ pairsOf q.1 l1 →
        y ∈ deleteSet (P1t ++ q :: P2) := by
      intro y hy
      rw [deleteSet_append]
      rcases List.mem_append.mp hy with h1 | h2
      · exact List.mem_append_left _ h1
      · apply List.mem_append_right
        rw [deleteSet_cons]
        apply List.mem_append_left
        obtain ⟨u, hu, rfl⟩ := List.mem_map.mp h2
        exact List.mem_map.mpr ⟨u, by rw [hq]; exact List.mem_append_left _ hu, rfl⟩
    have hvmem : ((q.1, v.name) : String × String) ∈ deleteSet (P1t ++ q :: P2) := by
      rw [deleteSet_append]
      apply List.mem_append_right
      rw [deleteSet_cons]
      apply List.mem_append_left
      exact List.mem_map.mpr ⟨v, by rw [hq]; exact List.mem_append_right _ (List.mem_cons_self v l2), rfl⟩
    have hokrest : ∀ y ∈ deleteSet P1t ++ pairsOf q.1 l1,
        removeFailsAt (st.fs.map (scrub (pairsOf r.1 (toDelete r.2)))) y.1 y.2 = false := by
      intro y hy
      rw [removeFailsAt_scrub st.fs _ y.1 y.2 ?_]
      · rcases List.mem_append.mp hy with h1 | h2
        · apply hok y
          apply List.mem_append_left
          rw [deleteSet_cons]
          exact List.mem_append_right _ h1
        · exact hok y (List.mem_append_right _ h2)
      · intro hyP
        exact hdisj hyP (hsubrest y hy)
    have hbad2 : removeFailsAt (st.fs.map (scrub (pairsOf r.1 (toDelete r.2)))) q.1 v.name
        = true := by
      rw [removeFailsAt_scrub st.fs _ q.1 v.name ?_]
      · exact hbad
      · intro hyP
        exact hdisj hyP hvmem
    rw [hstep, ih _ rfl hnd2 (fun s hs => hnames s (List.mem_cons_of_mem r hs)) hokrest hbad2,
      map_scrub_comp]
    rw [deleteSet_cons]
    simp [List.append_assoc, List.sum_cons]
    omega

/-- Claim C9: every metadata-read, directory-read, or deletion failure
during cleaning is fatal.  A root read failure aborts before anything is
scanned; a package-directory read or metadata failure aborts the run
during the first pass with the propagated message, prints no summary, and
leaves the tree untouched; a removal failure in the live delete loop stops
at the point of failure with the message naming the failing directory,
prints no summary, keeps the deletions already performed (`scrub` over the
prior targets — no rollback), and the log ends with the attempted path. -/
theorem C9_failures_fatal (fs : CacheFS) (d : Bool) :
    ((clean_package_cache fs true d).failure.isSome = true
      ∧ (clean_package_cache fs true d).summaryPrinted = false
      ∧ (clean_package_cache fs true d).fs = fs)
    ∧ ((∃ p ∈ fs, goodDir p = true ∧
          (p.readFails = true ∨ ∃ v ∈ p.entries, vGood v = true ∧ v.metadataFails = true)) →
        ∃ e, clean_package_cache fs false d = ⟨fs, 0, 0, 0, [], some e, false⟩)
    ∧ (∀ (P1 : PkgMap) (q : String × List PackageVersion) (P2 : PkgMap)
          (l1 : List PackageVersion) (v : PackageVersion) (l2 : List PackageVersion),
        (pkgNames fs).Nodup → (∀ p ∈ fs, (verNames p).Nodup) →
        noCollectFailsFS fs = true →
        (fs.filter goodPkg).map (fun p => (p.name, versionsOf p)) = P1 ++ q :: P2 →
        toDelete q.2 = l1 ++ v :: l2 →
        (∀ y ∈ deleteSet P1 ++ pairsOf q.1 l1, removeFailsAt fs y.1 y.2 = false) →
        removeFailsAt fs q.1 v.name = true →
        clean_package_cache fs false false =
          ⟨fs.map (scrub (deleteSet P1 ++ pairsOf q.1 l1)),
            (P1 ++ q :: P2).length,
            (P1.map (fun r => (toKeep r.2).length)).sum + (toKeep q.2).length,
            (P1.map (fun r => (toDelete r.2).length)).sum + l1.length,
            deleteSet P1 ++ pairsOf q.1 l1 ++ [(q.1, v.name)],
            some ("Failed to delete directory: " ++ q.1 ++ "\\" ++ v.name),
            false⟩) := by
  refine ⟨?_, ?_, ?_⟩
  · have hc : collectPackages true fs = .error "Failed to read directory: <cache root>" := rfl
    rw [clean_package_cache_collect_error fs true d _ hc]
    exact ⟨rfl, rfl, rfl⟩
  · intro hbad
    obtain ⟨e, he⟩ := collectPackages_error fs hbad
    exact ⟨e, clean_package_cache_collect_error fs false d e he⟩
  · intro P1 q P2 l1 v l2 hnodup hvnd hncf hsplit hq hok hbad
    have hc := collectPackages_ok fs hnodup hncf
    rw [hsplit] at hc
    have hknodup := collected_keys_nodup fs hnodup
    have hnames : ∀ r ∈ (fs.filter goodPkg).map (fun p => (p.name, versionsOf p)),
        ((toDelete r.2).map (fun u => u.name)).Nodup := by
      intro r hr
      obtain ⟨p, hp, rfl⟩ := List.mem_map.mp hr
      apply toDelete_names_nodup
      rw [versionsOf_names]
      exact hvnd p (List.mem_filter.mp hp).1
    have hDSnodup := deleteSet_nodup_of _ hknodup hnames
    rw [hsplit] at hDSnodup hnames
    unfold clean_package_cache
    rw [hc]
    have hfold := foldl_processPackage_live_fail q P2 l1 v l2 hq P1 ⟨fs, 0, 0, [], none⟩ rfl
      hDSnodup hnames hok hbad
    simp only [hfold]
    simp

unseal List.merge List.mergeSort in
/-- Witness for C9: in `failCache`, the removal of `pkgC\0.9` fails after
`pkgC\1.0` was already deleted; the run aborts with the message naming the
failing directory and the summary is not printed. -/
theorem C9_witness :
    removeFailsAt failCache "pkgC" "0.9" = true
    ∧ (clean_package_cache failCache false false).failure
        = some ("Failed to delete directory: " ++ "pkgC" ++ "\\" ++ "0.9")
    ∧ (clean_package_cache failCache false false).summaryPrinted = false
    ∧ (clean_package_cache failCache false false).deleteLog
        = [("pkgC", "1.0"), ("pkgC", "0.9")] := by
  have h := (C9_failures_fatal failCache false).2.2 []
    ("pkgC", [⟨"0.9", 10⟩, ⟨"1.0", 100⟩, ⟨"1.1", 200⟩, ⟨"1.2", 300⟩]) []
    [⟨"1.0", 100⟩] ⟨"0.9", 10⟩ []
    (by decide) (by decide) (by decide) (by decide) (by decide) (by decide) (by decide)
  refine ⟨by decide, ?_, ?_, ?_⟩
  · rw [h]
  · rw [h]
  · rw [h]
    decide

end CleanPkgCache
